import Mathlib

/-!
Verification development for the PCP-MAE point-cloud masked-autoencoder
(`models/PCP_MAE.py`).  The Python tensor code is shallowly embedded over `ℚ`:
pointwise tensor operations become list/function operations, randomness
(shuffles, anchor choices) is externalized as explicit parameters, and the
floating-point special values relevant to the rasterizer are modelled by an
explicit IEEE-style carrier type.
-/

namespace PCPMAE

/-! ### Basic 3D point arithmetic -/

/-- A 3D point, as one row of an `... × 3` tensor. -/
abbrev Vec3 := ℚ × ℚ × ℚ

def vadd3 (a b : Vec3) : Vec3 := (a.1 + b.1, a.2.1 + b.2.1, a.2.2 + b.2.2)

def vsub3 (a b : Vec3) : Vec3 := (a.1 - b.1, a.2.1 - b.2.1, a.2.2 - b.2.2)

/-- Squared Euclidean distance.  `torch.norm(·, p=2, dim=-1)` is the square
root of this; square-rooting is strictly monotone on nonnegative values, so
every comparison or argsort the source performs on the 2-norm coincides with
the comparison on the squared norm, which keeps the embedding inside `ℚ`. -/
def distSq (a b : Vec3) : ℚ :=
  (a.1 - b.1) ^ 2 + (a.2.1 - b.2.1) ^ 2 + (a.2.2 - b.2.2) ^ 2

theorem distSq_nonneg (a b : Vec3) : 0 ≤ distSq a b := by
  unfold distSq
  have h1 := sq_nonneg (a.1 - b.1)
  have h2 := sq_nonneg (a.2.1 - b.2.1)
  have h3 := sq_nonneg (a.2.2 - b.2.2)
  linarith

theorem distSq_self (a : Vec3) : distSq a a = 0 := by
  unfold distSq; ring

theorem distSq_eq_zero_iff (a b : Vec3) : distSq a b = 0 ↔ a = b := by
  constructor
  · intro h
    have h1 := sq_nonneg (a.1 - b.1)
    have h2 := sq_nonneg (a.2.1 - b.2.1)
    have h3 := sq_nonneg (a.2.2 - b.2.2)
    have e1 : (a.1 - b.1) ^ 2 = 0 := by unfold distSq at h; linarith
    have e2 : (a.2.1 - b.2.1) ^ 2 = 0 := by unfold distSq at h; linarith
    have e3 : (a.2.2 - b.2.2) ^ 2 = 0 := by unfold distSq at h; linarith
    have f1 : a.1 = b.1 := by have := pow_eq_zero_iff (n := 2) (by norm_num) |>.mp e1; linarith
    have f2 : a.2.1 = b.2.1 := by have := pow_eq_zero_iff (n := 2) (by norm_num) |>.mp e2; linarith
    have f3 : a.2.2 = b.2.2 := by have := pow_eq_zero_iff (n := 2) (by norm_num) |>.mp e3; linarith
    exact Prod.ext f1 (Prod.ext f2 f3)
  · rintro rfl; exact distSq_self a

/-! ### Argsort

`torch.argsort(keys, descending=False)` returns the indices `0 .. n-1` ordered
by ascending key.  torch leaves the order of equal keys unspecified; the
embedding fixes the stable order (equal keys keep their original index order),
which is what `List.insertionSort` with a `≤` comparison produces. -/

def argsortQ (keys : List ℚ) : List ℕ :=
  (List.range keys.length).insertionSort (fun i j => keys.getD i 0 ≤ keys.getD j 0)

theorem argsortQ_perm (keys : List ℚ) :
    List.Perm (argsortQ keys) (List.range keys.length) :=
  List.perm_insertionSort _ _

theorem argsortQ_length (keys : List ℚ) :
    (argsortQ keys).length = keys.length := by
  simpa using (argsortQ_perm keys).length_eq

theorem argsortQ_nodup (keys : List ℚ) : (argsortQ keys).Nodup :=
  ((argsortQ_perm keys).nodup_iff).mpr (List.nodup_range _)

theorem argsortQ_mem_lt (keys : List ℚ) {i : ℕ} (h : i ∈ argsortQ keys) :
    i < keys.length := by
  have := (argsortQ_perm keys).mem_iff.mp h
  simpa using this

theorem argsortQ_mem_of_lt (keys : List ℚ) {i : ℕ} (h : i < keys.length) :
    i ∈ argsortQ keys := by
  exact (argsortQ_perm keys).mem_iff.mpr (by simpa using h)

theorem argsortQ_sorted (keys : List ℚ) :
    (argsortQ keys).Sorted (fun i j => keys.getD i 0 ≤ keys.getD j 0) := by
  haveI : IsTotal ℕ (fun i j => keys.getD i 0 ≤ keys.getD j 0) :=
    ⟨fun a b => le_total _ _⟩
  haveI : IsTrans ℕ (fun i j => keys.getD i 0 ≤ keys.getD j 0) :=
    ⟨fun _ _ _ hab hbc => le_trans hab hbc⟩
  exact List.sorted_insertionSort _ _

theorem getD_map_lt {α β : Type*} (f : α → β) (l : List α) (d : β) (d' : α) {i : ℕ}
    (h : i < l.length) : (l.map f).getD i d = f (l.getD i d') := by
  rw [List.getD_eq_getElem (l.map f) d (by simpa using h), List.getElem_map,
    List.getD_eq_getElem l d' h]

/-! ### Counting helpers -/

def countTrue (l : List Bool) : ℕ := l.count true

/-- `List.range n` restricted to membership in a duplicate-free list `l` of
values `< n` has exactly `l.length` elements. -/
theorem length_filter_range_mem {l : List ℕ} {n : ℕ} (hnd : l.Nodup)
    (hlt : ∀ x ∈ l, x < n) :
    ((List.range n).filter (fun x => decide (x ∈ l))).length = l.length := by
  have hfil : ((List.range n).filter (fun x => decide (x ∈ l))).Nodup :=
    (List.nodup_range n).filter _
  have htf : ((List.range n).filter (fun x => decide (x ∈ l))).toFinset
      = l.toFinset := by
    ext x
    simp only [List.mem_toFinset, List.mem_filter, List.mem_range, decide_eq_true_eq]
    constructor
    · rintro ⟨_, hx⟩; exact hx
    · intro hx; exact ⟨hlt x hx, hx⟩
  calc ((List.range n).filter (fun x => decide (x ∈ l))).length
      = ((List.range n).filter (fun x => decide (x ∈ l))).toFinset.card :=
        (List.toFinset_card_of_nodup hfil).symm
    _ = l.toFinset.card := by rw [htf]
    _ = l.length := List.toFinset_card_of_nodup hnd

theorem countP_range_ge (n a : ℕ) (ha : a ≤ n) :
    (List.range n).countP (fun m => decide (a ≤ m)) = n - a := by
  induction n with
  | zero => simp_all
  | succ n ih =>
    rw [List.range_succ, List.countP_append]
    by_cases h : a ≤ n
    · rw [ih h]
      simp only [List.countP_cons, List.countP_nil]
      rw [if_pos (by simpa using h)]
      omega
    · have ha' : a = n + 1 := by omega
      subst ha'
      have h0 : (List.range n).countP (fun m => decide (n + 1 ≤ m)) = 0 := by
        rw [List.countP_eq_zero]
        intro m hm
        simp only [decide_eq_true_eq]
        have := List.mem_range.mp hm
        omega
      simp [h0]

/-! ### Masking policies

Embedding of `MaskTransformer._mask_center_rand` and
`MaskTransformer._mask_center_block`.  The random draws of the source
(`np.random.shuffle`, `random.randint`) are externalized: the shuffle becomes
an explicit permutation parameter, the block anchor an explicit index. -/

/-- `int(mask_ratio * G)`: Python `int()` truncates toward zero, which on the
nonnegative ratios used by the model is the floor. -/
def maskNum (ratio : ℚ) (G : ℕ) : ℕ := (⌊ratio * G⌋).toNat

theorem maskNum_le (ratio : ℚ) (G : ℕ) (h : ratio ≤ 1) : maskNum ratio G ≤ G := by
  unfold maskNum
  have hg : (0 : ℚ) ≤ (G : ℚ) := Nat.cast_nonneg G
  have hle : ratio * (G : ℚ) ≤ (G : ℚ) := by nlinarith
  have hfl : (⌊ratio * (G : ℚ)⌋ : ℤ) ≤ (G : ℤ) := by
    calc (⌊ratio * (G : ℚ)⌋ : ℤ) ≤ ⌊(G : ℚ)⌋ := Int.floor_le_floor hle
      _ = (G : ℤ) := Int.floor_natCast G
  omega

/-- One row of `_mask_center_rand`: `np.hstack([np.zeros(G-num), np.ones(num)])`
shuffled in place; the shuffled row satisfies `row[i] = base[σ i]` for the
permutation `σ` drawn by `np.random.shuffle`. -/
def maskRowRand (G num : ℕ) (σ : Equiv.Perm (Fin G)) : List Bool :=
  (List.finRange G).map (fun g => decide (G - num ≤ ((σ g : Fin G) : ℕ)))

/-- One row of `_mask_center_block`: squared distances from the anchor's center
to every center, ascending argsort, and the first `int(ratio * G)` sorted
indices are set to `1` in a zero vector. -/
def maskRowBlock (centers : List Vec3) (anchor : ℕ) (ratio : ℚ) : List Bool :=
  (List.range centers.length).map (fun g =>
    decide (g ∈ (argsortQ (centers.map
      (fun c => distSq (centers.getD anchor ((0, 0, 0) : Vec3)) c))).take
        (maskNum ratio centers.length)))

/-- `MaskTransformer._mask_center_rand` over a batch of `B` samples with `G`
group centers each ( the mask depends on the centers only through their
count `G`). -/
def mask_center_rand (ratio : ℚ) (noaug : Bool) (B G : ℕ)
    (σ : Fin B → Equiv.Perm (Fin G)) : List (List Bool) :=
  if noaug = true ∨ ratio = 0 then List.replicate B (List.replicate G false)
  else (List.finRange B).map (fun b => maskRowRand G (maskNum ratio G) (σ b))

/-- `MaskTransformer._mask_center_block` over a batch; `anchors` lists the
outcome of `random.randint(0, G-1)` for each sample. -/
def mask_center_block (ratio : ℚ) (noaug : Bool)
    (centers : List (List Vec3)) (anchors : List ℕ) : List (List Bool) :=
  if noaug = true ∨ ratio = 0 then
    centers.map (fun c => List.replicate c.length false)
  else List.zipWith (fun c a => maskRowBlock c a ratio) centers anchors

theorem map_perm_finRange {G : ℕ} (σ : Equiv.Perm (Fin G)) :
    List.Perm ((List.finRange G).map σ) (List.finRange G) := by
  apply List.Subperm.perm_of_length_le
  · exact List.subperm_of_subset ((List.nodup_finRange G).map σ.injective)
      (fun x _ => List.mem_finRange x)
  · simp

theorem countTrue_maskRowRand (G num : ℕ) (hnum : num ≤ G)
    (σ : Equiv.Perm (Fin G)) :
    countTrue (maskRowRand G num σ) = num := by
  unfold countTrue maskRowRand
  rw [List.count_eq_countP, List.countP_map]
  have h1 : (((List.finRange G).map ⇑σ).map (fun g : Fin G => (g : ℕ))).countP
      (fun m => decide (G - num ≤ m))
      = (List.finRange G).countP
          ((fun b => b == true) ∘ fun g : Fin G => decide (G - num ≤ ((σ g : Fin G) : ℕ))) := by
    rw [List.countP_map, List.countP_map]
    congr 1
    funext g
    simp
  have h2 : (((List.finRange G).map ⇑σ).map (fun g : Fin G => (g : ℕ))).countP
      (fun m => decide (G - num ≤ m))
      = ((List.finRange G).map (fun g : Fin G => (g : ℕ))).countP
        (fun m => decide (G - num ≤ m)) :=
    ((map_perm_finRange σ).map (fun g : Fin G => (g : ℕ))).countP_eq _
  rw [← h1, h2, List.map_coe_finRange, countP_range_ge G (G - num) (by omega)]
  omega

theorem mem_zipWith {α β γ : Type*} {f : α → β → γ} {l₁ : List α} {l₂ : List β}
    {x : γ} (h : x ∈ List.zipWith f l₁ l₂) : ∃ a ∈ l₁, ∃ b ∈ l₂, x = f a b := by
  induction l₁ generalizing l₂ with
  | nil => simp at h
  | cons a t ih =>
    cases l₂ with
    | nil => simp at h
    | cons b t₂ =>
      simp only [List.zipWith_cons_cons, List.mem_cons] at h
      rcases h with rfl | h
      · exact ⟨a, List.mem_cons_self a t, b, List.mem_cons_self b t₂, rfl⟩
      · obtain ⟨a', ha', b', hb', rfl⟩ := ih h
        exact ⟨a', List.mem_cons_of_mem _ ha', b', List.mem_cons_of_mem _ hb', rfl⟩

theorem countTrue_maskRowBlock (centers : List Vec3) (anchor : ℕ) (ratio : ℚ)
    (h1 : ratio ≤ 1) :
    countTrue (maskRowBlock centers anchor ratio)
      = maskNum ratio centers.length := by
  unfold countTrue maskRowBlock
  set keys := centers.map
    (fun c => distSq (centers.getD anchor ((0, 0, 0) : Vec3)) c) with hkeys
  have hklen : keys.length = centers.length := by simp [hkeys]
  set num := maskNum ratio centers.length with hnumdef
  have hnum : num ≤ centers.length := maskNum_le _ _ h1
  set tk := (argsortQ keys).take num with htk
  have htknd : tk.Nodup := (argsortQ_nodup keys).sublist (List.take_sublist _ _)
  have htklt : ∀ x ∈ tk, x < centers.length := by
    intro x hx
    have := argsortQ_mem_lt keys (List.mem_of_mem_take hx)
    omega
  have htklen : tk.length = num := by
    rw [htk, List.length_take, argsortQ_length, hklen]
    omega
  rw [List.count_eq_countP, List.countP_map]
  have hc1 : ((fun b => b == true) ∘ fun g : ℕ => decide (g ∈ tk))
      = fun g : ℕ => decide (g ∈ tk) := by funext g; simp
  rw [hc1, List.countP_eq_length_filter, length_filter_range_mem htknd htklt, htklen]

theorem maskRowBlock_length (centers : List Vec3) (anchor : ℕ) (ratio : ℚ) :
    (maskRowBlock centers anchor ratio).length = centers.length := by
  unfold maskRowBlock; simp

/-- **C1 (amended)**: both policies produce a `B × G` boolean mask with exactly
`int(mask_ratio * G)` (truncation, not rounding) true entries in every row for
`mask_ratio ∈ (0, 1)`, and an all-false mask when `mask_ratio = 0` or `noaug`
is set. -/
theorem c1_mask_count (ratio : ℚ) (B G : ℕ) (h0 : 0 < ratio) (h1 : ratio < 1)
    (σ : Fin B → Equiv.Perm (Fin G))
    (centers : List (List Vec3)) (anchors : List ℕ)
    (hc : ∀ c ∈ centers, c.length = G) :
    ((mask_center_rand ratio false B G σ).length = B ∧
      ∀ row ∈ mask_center_rand ratio false B G σ,
        row.length = G ∧ countTrue row = maskNum ratio G) ∧
    (∀ row ∈ mask_center_block ratio false centers anchors,
        row.length = G ∧ countTrue row = maskNum ratio G) ∧
    (∀ (r' : ℚ) (noaug : Bool), noaug = true ∨ r' = 0 →
      mask_center_rand r' noaug B G σ = List.replicate B (List.replicate G false) ∧
      mask_center_block r' noaug centers anchors
        = centers.map (fun c => List.replicate c.length false)) := by
  have hne : ¬ (false = true ∨ ratio = 0) := by
    rintro (h | h)
    · exact Bool.false_ne_true h
    · exact absurd h (ne_of_gt h0)
  refine ⟨⟨?_, ?_⟩, ?_, ?_⟩
  · rw [mask_center_rand, if_neg hne]; simp
  · intro row hrow
    rw [mask_center_rand, if_neg hne] at hrow
    obtain ⟨b, _, rfl⟩ := List.mem_map.mp hrow
    refine ⟨by simp [maskRowRand], ?_⟩
    exact countTrue_maskRowRand G (maskNum ratio G) (maskNum_le _ _ (le_of_lt h1)) _
  · intro row hrow
    rw [mask_center_block, if_neg hne] at hrow
    obtain ⟨c, hcmem, a, _, rfl⟩ := mem_zipWith hrow
    have hcg : c.length = G := hc c hcmem
    refine ⟨by rw [maskRowBlock_length, hcg], ?_⟩
    rw [countTrue_maskRowBlock c a ratio (le_of_lt h1), hcg]
  · intro r' noaug hnoaug
    constructor
    · rw [mask_center_rand, if_pos hnoaug]
    · rw [mask_center_block, if_pos hnoaug]

/-- **C1 witness**: the amended statement instantiated at `ratio = 1/2`,
`B = 1`, `G = 2`, identity shuffle, one batch with two centers. -/
theorem c1_mask_count_witness :
    ((0 : ℚ) < 1/2 ∧ (1/2 : ℚ) < 1 ∧
      (∀ c ∈ ([[((0 : ℚ), (0 : ℚ), (0 : ℚ)), ((1 : ℚ), (0 : ℚ), (0 : ℚ))]] :
          List (List Vec3)), c.length = 2)) ∧
    (((mask_center_rand (1/2) false 1 2 (fun _ => Equiv.refl (Fin 2))).length = 1 ∧
      ∀ row ∈ mask_center_rand (1/2) false 1 2 (fun _ => Equiv.refl (Fin 2)),
        row.length = 2 ∧ countTrue row = maskNum (1/2) 2) ∧
    (∀ row ∈ mask_center_block (1/2) false
        ([[((0 : ℚ), (0 : ℚ), (0 : ℚ)), ((1 : ℚ), (0 : ℚ), (0 : ℚ))]] : List (List Vec3)) [0],
        row.length = 2 ∧ countTrue row = maskNum (1/2) 2) ∧
    (∀ (r' : ℚ) (noaug : Bool), noaug = true ∨ r' = 0 →
      mask_center_rand r' noaug 1 2 (fun _ => Equiv.refl (Fin 2))
        = List.replicate 1 (List.replicate 2 false) ∧
      mask_center_block r' noaug
          ([[((0 : ℚ), (0 : ℚ), (0 : ℚ)), ((1 : ℚ), (0 : ℚ), (0 : ℚ))]] : List (List Vec3)) [0]
        = ([[((0 : ℚ), (0 : ℚ), (0 : ℚ)), ((1 : ℚ), (0 : ℚ), (0 : ℚ))]] :
            List (List Vec3)).map (fun c => List.replicate c.length false))) :=
  ⟨⟨by norm_num, by norm_num, by
      intro c hc
      rw [List.mem_singleton] at hc
      subst hc
      rfl⟩,
    c1_mask_count (1/2) 1 2 (by norm_num) (by norm_num)
      (fun _ => Equiv.refl (Fin 2)) _ [0] (by
        intro c hc
        rw [List.mem_singleton] at hc
        subst hc
        rfl)⟩

/-- **C1 counterexample**: with `G = 3` and `mask_ratio = 1/2` the code masks
`int(1.5) = 1` group per row, not `round(1.5) = 2` as the claim states. -/
theorem c1_counterexample :
    (mask_center_rand (1/2) false 1 3 (fun _ => Equiv.refl (Fin 3))).map countTrue
      = [1] ∧
    (round ((1/2 : ℚ) * 3)).toNat = 2 := by
  constructor
  · with_unfolding_all rfl
  · have h : round ((1/2 : ℚ) * 3) = 2 := by norm_num [round_eq]
    rw [h]
    rfl

/-- If index `a` is the unique index whose key is zero and all keys are
nonnegative, then `a` heads the ascending argsort, hence lies in any nonempty
prefix. -/
theorem argsortQ_head_unique_min (keys : List ℚ) (a : ℕ) (ha : a < keys.length)
    (hzero : keys.getD a 0 = 0)
    (hnonneg : ∀ i, 0 ≤ keys.getD i 0)
    (huniq : ∀ j < keys.length, keys.getD j 0 = 0 → j = a)
    {num : ℕ} (hnum : 1 ≤ num) :
    a ∈ (argsortQ keys).take num := by
  obtain ⟨hd, tl, hcons⟩ : ∃ hd tl, argsortQ keys = hd :: tl := by
    cases hh : argsortQ keys with
    | nil =>
      have hlen := argsortQ_length keys
      rw [hh] at hlen
      simp only [List.length_nil] at hlen
      omega
    | cons x l => exact ⟨x, l, rfl⟩
  have hhd_lt : hd < keys.length :=
    argsortQ_mem_lt keys (by rw [hcons]; exact List.mem_cons_self hd tl)
  have hda : hd = a := by
    by_cases h : hd = a
    · exact h
    · have hmem : a ∈ argsortQ keys := argsortQ_mem_of_lt keys ha
      rw [hcons] at hmem
      have htl : a ∈ tl := by
        rcases List.mem_cons.mp hmem with h' | h'
        · exact absurd h'.symm h
        · exact h'
      have hsorted := argsortQ_sorted keys
      rw [hcons, List.sorted_cons] at hsorted
      have hle : keys.getD hd 0 ≤ keys.getD a 0 := hsorted.1 a htl
      rw [hzero] at hle
      have h0 : keys.getD hd 0 = 0 := le_antisymm hle (hnonneg hd)
      exact absurd (huniq hd hhd_lt h0) h
  subst hda
  rw [hcons]
  obtain ⟨m, rfl⟩ : ∃ m, num = m + 1 := ⟨num - 1, by omega⟩
  rw [List.take_succ_cons]
  exact List.mem_cons_self hd _

/-- **C10 (amended)**: in the block policy, whenever `int(mask_ratio * G) ≥ 1`
and no other group center coincides exactly with the anchor's center, the
anchor group itself is masked. -/
theorem c10_block_anchor_masked (centers : List Vec3) (anchor : ℕ) (ratio : ℚ)
    (ha : anchor < centers.length)
    (hnum : 1 ≤ maskNum ratio centers.length)
    (huniq : ∀ j < centers.length, j ≠ anchor →
      centers.getD j ((0, 0, 0) : Vec3) ≠ centers.getD anchor ((0, 0, 0) : Vec3)) :
    (maskRowBlock centers anchor ratio).getD anchor false = true := by
  unfold maskRowBlock
  have hr : (List.range centers.length).getD anchor 0 = anchor := by
    rw [List.getD_eq_getElem _ _ (by simpa using ha), List.getElem_range]
  rw [getD_map_lt _ (List.range centers.length) false 0 (by simpa using ha), hr,
    decide_eq_true_eq]
  apply argsortQ_head_unique_min _ anchor _ _ _ _ hnum
  · rw [List.length_map]; exact ha
  · rw [getD_map_lt _ centers 0 ((0, 0, 0) : Vec3) ha]
    exact distSq_self _
  · intro i
    by_cases hi : i < centers.length
    · rw [getD_map_lt _ centers 0 ((0, 0, 0) : Vec3) hi]
      exact distSq_nonneg _ _
    · rw [List.getD_eq_default _ _ (by simpa using not_lt.mp hi)]
  · intro j hj hj0
    rw [List.length_map] at hj
    rw [getD_map_lt _ centers 0 ((0, 0, 0) : Vec3) hj] at hj0
    by_contra hne
    exact huniq j hj hne ((distSq_eq_zero_iff _ _).mp hj0).symm

/-- **C10 witness**: two distinct centers, anchor `0`, `ratio = 1/2`. -/
theorem c10_block_anchor_masked_witness :
    ((0 : ℕ) < ([((0 : ℚ), (0 : ℚ), (0 : ℚ)), ((1 : ℚ), (0 : ℚ), (0 : ℚ))] :
        List Vec3).length ∧
      1 ≤ maskNum (1/2) ([((0 : ℚ), (0 : ℚ), (0 : ℚ)), ((1 : ℚ), (0 : ℚ), (0 : ℚ))] :
        List Vec3).length ∧
      (∀ j < ([((0 : ℚ), (0 : ℚ), (0 : ℚ)), ((1 : ℚ), (0 : ℚ), (0 : ℚ))] :
          List Vec3).length, j ≠ 0 →
        ([((0 : ℚ), (0 : ℚ), (0 : ℚ)), ((1 : ℚ), (0 : ℚ), (0 : ℚ))] :
          List Vec3).getD j ((0, 0, 0) : Vec3)
          ≠ ([((0 : ℚ), (0 : ℚ), (0 : ℚ)), ((1 : ℚ), (0 : ℚ), (0 : ℚ))] :
          List Vec3).getD 0 ((0, 0, 0) : Vec3))) ∧
    (maskRowBlock ([((0 : ℚ), (0 : ℚ), (0 : ℚ)), ((1 : ℚ), (0 : ℚ), (0 : ℚ))] :
        List Vec3) 0 (1/2)).getD 0 false = true :=
  ⟨⟨by decide, of_decide_eq_true (by with_unfolding_all rfl),
      of_decide_eq_true (by with_unfolding_all rfl)⟩,
    c10_block_anchor_masked _ 0 (1/2) (by decide)
      (of_decide_eq_true (by with_unfolding_all rfl))
      (of_decide_eq_true (by with_unfolding_all rfl))⟩

/-- **C10 counterexample**: with two coincident centers and anchor `1`, the
mask count is `1` but the anchor is not masked (the distance tie is resolved
in favor of index `0`). -/
theorem c10_counterexample :
    1 ≤ maskNum (1/2) 2 ∧
    (maskRowBlock ([((0 : ℚ), (0 : ℚ), (0 : ℚ)), ((0 : ℚ), (0 : ℚ), (0 : ℚ))] :
        List Vec3) 1 (1/2)).getD 1 false = false := by
  constructor
  · exact of_decide_eq_true (by with_unfolding_all rfl)
  · with_unfolding_all rfl

/-! ### Grouping (`Group.forward` = FPS + kNN)

`misc.fps` and `utils.knn.knn_point` live outside `src/`; they are modelled
from the spec.  The gather / centering arithmetic is from `Group.forward`. -/

theorem vadd3_vsub3 (a b : Vec3) : vadd3 (vsub3 a b) b = a := by
  cases a
  cases b
  simp [vadd3, vsub3]

/-- Minimum squared distance from point `p` to the centers already selected
(indices into `xyz`); `0` when nothing is selected yet, so the first greedy
pick is the first point — a fixed arbitrary start. -/
def minDistSqTo (xyz : List Vec3) (sel : List ℕ) (p : Vec3) : ℚ :=
  match sel with
  | [] => 0
  | s :: rest =>
    (rest.map (fun i => distSq p (xyz.getD i ((0, 0, 0) : Vec3)))).foldl min
      (distSq p (xyz.getD s ((0, 0, 0) : Vec3)))

def argmaxQAux : List ℚ → ℕ → ℕ → ℚ → ℕ
  | [], _, best, _ => best
  | x :: xs, i, best, bv =>
    if bv < x then argmaxQAux xs (i + 1) i x else argmaxQAux xs (i + 1) best bv

/-- Index of the first maximal element of `l` (`0` on an empty list). -/
def argmaxQ : List ℚ → ℕ
  | [] => 0
  | x :: xs => argmaxQAux xs 1 0 x

theorem argmaxQAux_lt (xs : List ℚ) (i best : ℕ) (bv : ℚ) (N : ℕ)
    (hb : best < N) (hi : i + xs.length ≤ N) : argmaxQAux xs i best bv < N := by
  induction xs generalizing i best bv with
  | nil => simpa [argmaxQAux] using hb
  | cons x xs ih =>
    simp only [argmaxQAux]
    simp only [List.length_cons] at hi
    split
    · exact ih (i + 1) i x (by omega) (by omega)
    · exact ih (i + 1) best bv hb (by omega)

theorem argmaxQ_lt (l : List ℚ) (hl : l ≠ []) : argmaxQ l < l.length := by
  cases l with
  | nil => exact absurd rfl hl
  | cons x xs =>
    simp only [argmaxQ, List.length_cons]
    exact argmaxQAux_lt xs 1 0 x (xs.length + 1) (by omega) (by omega)

/-- Modelled from the spec: `misc.fps` (`utils/misc.py`, not under `src/`).
Greedy farthest-point sampling over indices: start from the first point, then
repeatedly select, among the not-yet-selected indices, one whose minimum
distance to the already-selected centers is maximal (first index on ties). -/
def fpsIndices (xyz : List Vec3) : ℕ → List ℕ → List ℕ
  | 0, sel => sel.reverse
  | g + 1, sel =>
    match (List.range xyz.length).filter (fun i => decide (i ∉ sel)) with
    | [] => sel.reverse
    | c :: cs =>
      let cands := c :: cs
      let vals := cands.map
        (fun i => minDistSqTo xyz sel (xyz.getD i ((0, 0, 0) : Vec3)))
      fpsIndices xyz g (cands.getD (argmaxQ vals) 0 :: sel)

/-- FPS returning center coordinates, as `misc.fps(xyz, G)` does. -/
def fps (xyz : List Vec3) (G : ℕ) : List Vec3 :=
  (fpsIndices xyz G []).map (fun i => xyz.getD i ((0, 0, 0) : Vec3))

/-- Modelled from the spec: `utils.knn.knn_point` (`utils/knn.py`, not under
`src/`): for each center, the indices of its `M` nearest input points,
ascending by distance, ties broken by stable index order. -/
def knn_point (M : ℕ) (xyz : List Vec3) (centers : List Vec3) : List (List ℕ) :=
  centers.map (fun c => (argsortQ (xyz.map (fun p => distSq c p))).take M)

/-- `Group.forward`: FPS centers, kNN neighborhood gather, and the centering
`neighborhood - center.unsqueeze(2)`.  (The `idx_base` index arithmetic of the
source flattens the batch dimension for the gather; per cloud it is the plain
gather `xyz[idx]`.) -/
def groupForward (num_group group_size : ℕ) (xyz : List Vec3) :
    List (List Vec3) × List Vec3 :=
  let center := fps xyz num_group
  let idx := knn_point group_size xyz center
  (List.zipWith
      (fun row c => row.map (fun i => vsub3 (xyz.getD i ((0, 0, 0) : Vec3)) c))
      idx center,
    center)

theorem fpsIndices_length (xyz : List Vec3) (g : ℕ) (sel : List ℕ)
    (hnd : sel.Nodup) (hlt : ∀ i ∈ sel, i < xyz.length)
    (hle : g + sel.length ≤ xyz.length) :
    (fpsIndices xyz g sel).length = g + sel.length := by
  induction g generalizing sel with
  | zero => simp [fpsIndices]
  | succ g ih =>
    have hex : ∃ j, j ∈ (List.range xyz.length).filter (fun i => decide (i ∉ sel)) := by
      by_contra hno
      push_neg at hno
      have hsub : List.range xyz.length ⊆ sel := by
        intro i hi
        by_contra hmem
        exact hno i (List.mem_filter.mpr ⟨hi, by simpa using hmem⟩)
      have hlen := (List.subperm_of_subset (List.nodup_range _) hsub).length_le
      simp only [List.length_range] at hlen
      omega
    rw [fpsIndices]
    cases hc : (List.range xyz.length).filter (fun i => decide (i ∉ sel)) with
    | nil =>
      obtain ⟨j, hj⟩ := hex
      rw [hc] at hj
      exact absurd hj (List.not_mem_nil j)
    | cons c cs =>
      have hk_mem : (c :: cs).getD
          (argmaxQ ((c :: cs).map
            (fun i => minDistSqTo xyz sel (xyz.getD i ((0, 0, 0) : Vec3))))) 0
          ∈ c :: cs := by
        have harg : argmaxQ ((c :: cs).map
            (fun i => minDistSqTo xyz sel (xyz.getD i ((0, 0, 0) : Vec3))))
            < (c :: cs).length := by
          have := argmaxQ_lt ((c :: cs).map
            (fun i => minDistSqTo xyz sel (xyz.getD i ((0, 0, 0) : Vec3))))
            (by simp)
          simpa using this
        rw [List.getD_eq_getElem _ _ harg]
        exact List.getElem_mem _
      have hk_filter : (c :: cs).getD
          (argmaxQ ((c :: cs).map
            (fun i => minDistSqTo xyz sel (xyz.getD i ((0, 0, 0) : Vec3))))) 0
          ∈ (List.range xyz.length).filter (fun i => decide (i ∉ sel)) := by
        rw [hc]; exact hk_mem
      have hk_range := (List.mem_filter.mp hk_filter).1
      have hk_notsel : (c :: cs).getD
          (argmaxQ ((c :: cs).map
            (fun i => minDistSqTo xyz sel (xyz.getD i ((0, 0, 0) : Vec3))))) 0
          ∉ sel := by
        have := (List.mem_filter.mp hk_filter).2
        simpa using this
      have hres := ih _ (List.nodup_cons.mpr ⟨hk_notsel, hnd⟩)
        (by
          intro i hi
          rcases List.mem_cons.mp hi with rfl | hi'
          · exact List.mem_range.mp hk_range
          · exact hlt i hi')
        (by simp only [List.length_cons]; omega)
      simp only [List.length_cons] at hres ⊢
      omega

theorem fps_length (xyz : List Vec3) (G : ℕ) (hG : G ≤ xyz.length) :
    (fps xyz G).length = G := by
  unfold fps
  rw [List.length_map, fpsIndices_length xyz G [] List.nodup_nil
    (by intro i hi; exact absurd hi (List.not_mem_nil i)) (by simpa using hG)]
  rfl

/-- **C2**: every neighborhood produced by `Group.forward` contains exactly
`group_size` points, and adding the group's center back to each group-local
coordinate reconstructs a point of the original input cloud exactly. -/
theorem c2_group_roundtrip (G M : ℕ) (xyz : List Vec3)
    (hGN : G ≤ xyz.length) (hMN : M ≤ xyz.length) :
    ((groupForward G M xyz).1.length = G ∧ (groupForward G M xyz).2.length = G) ∧
    (∀ grp ∈ (groupForward G M xyz).1, grp.length = M) ∧
    (∀ gi : ℕ, gi < G → ∀ p ∈ (groupForward G M xyz).1.getD gi [],
      vadd3 p ((groupForward G M xyz).2.getD gi ((0, 0, 0) : Vec3)) ∈ xyz) := by
  have hctr : (fps xyz G).length = G := fps_length xyz G hGN
  have hidx : (knn_point M xyz (fps xyz G)).length = G := by
    unfold knn_point
    rw [List.length_map, hctr]
  have h1 : (groupForward G M xyz).1.length = G := by
    unfold groupForward
    simp only [List.length_zipWith]
    rw [hidx, hctr, min_self]
  refine ⟨⟨h1, hctr⟩, ?_, ?_⟩
  · intro grp hgrp
    unfold groupForward at hgrp
    obtain ⟨row, hrow, c, _, rfl⟩ := mem_zipWith hgrp
    rw [List.length_map]
    unfold knn_point at hrow
    obtain ⟨cc, _, rfl⟩ := List.mem_map.mp hrow
    rw [List.length_take, argsortQ_length, List.length_map]
    omega
  · intro gi hgi p hp
    have hgi1 : gi < (knn_point M xyz (fps xyz G)).length := by omega
    have hgi2 : gi < (fps xyz G).length := by omega
    have hfst : (groupForward G M xyz).1
        = List.zipWith
            (fun row c => row.map (fun i => vsub3 (xyz.getD i ((0, 0, 0) : Vec3)) c))
            (knn_point M xyz (fps xyz G)) (fps xyz G) := rfl
    have hzlen : gi < (List.zipWith
        (fun row c => row.map (fun i => vsub3 (xyz.getD i ((0, 0, 0) : Vec3)) c))
        (knn_point M xyz (fps xyz G)) (fps xyz G)).length := by
      rw [List.length_zipWith, hidx, hctr, min_self]
      exact hgi
    have hzip : (groupForward G M xyz).1.getD gi []
        = ((knn_point M xyz (fps xyz G)).getD gi []).map
            (fun i => vsub3 (xyz.getD i ((0, 0, 0) : Vec3))
              ((fps xyz G).getD gi ((0, 0, 0) : Vec3))) := by
      rw [hfst, List.getD_eq_getElem _ _ hzlen, List.getElem_zipWith,
        List.getD_eq_getElem _ _ hgi1, List.getD_eq_getElem _ _ hgi2]
    rw [hzip] at hp
    obtain ⟨i, hi_mem, rfl⟩ := List.mem_map.mp hp
    have hrow : (knn_point M xyz (fps xyz G)).getD gi []
        = (argsortQ (xyz.map (fun p => distSq
            ((fps xyz G).getD gi ((0, 0, 0) : Vec3)) p))).take M := by
      unfold knn_point
      rw [getD_map_lt _ (fps xyz G) [] ((0, 0, 0) : Vec3) hgi2]
    rw [hrow] at hi_mem
    have hi_lt : i < xyz.length := by
      have := argsortQ_mem_lt _ (List.mem_of_mem_take hi_mem)
      simpa using this
    have hgoal : (groupForward G M xyz).2.getD gi ((0, 0, 0) : Vec3)
        = (fps xyz G).getD gi ((0, 0, 0) : Vec3) := rfl
    rw [hgoal, vadd3_vsub3]
    rw [List.getD_eq_getElem _ _ hi_lt]
    exact List.getElem_mem _

/-- **C2 witness**: three collinear points, two groups of two points each. -/
theorem c2_group_roundtrip_witness :
    (2 ≤ ([((0 : ℚ), (0 : ℚ), (0 : ℚ)), ((1 : ℚ), (0 : ℚ), (0 : ℚ)),
        ((2 : ℚ), (0 : ℚ), (0 : ℚ))] : List Vec3).length ∧
     2 ≤ ([((0 : ℚ), (0 : ℚ), (0 : ℚ)), ((1 : ℚ), (0 : ℚ), (0 : ℚ)),
        ((2 : ℚ), (0 : ℚ), (0 : ℚ))] : List Vec3).length) ∧
    (((groupForward 2 2 ([((0 : ℚ), (0 : ℚ), (0 : ℚ)), ((1 : ℚ), (0 : ℚ), (0 : ℚ)),
        ((2 : ℚ), (0 : ℚ), (0 : ℚ))] : List Vec3)).1.length = 2 ∧
      (groupForward 2 2 ([((0 : ℚ), (0 : ℚ), (0 : ℚ)), ((1 : ℚ), (0 : ℚ), (0 : ℚ)),
        ((2 : ℚ), (0 : ℚ), (0 : ℚ))] : List Vec3)).2.length = 2) ∧
     (∀ grp ∈ (groupForward 2 2 ([((0 : ℚ), (0 : ℚ), (0 : ℚ)), ((1 : ℚ), (0 : ℚ), (0 : ℚ)),
        ((2 : ℚ), (0 : ℚ), (0 : ℚ))] : List Vec3)).1, grp.length = 2) ∧
     (∀ gi : ℕ, gi < 2 →
       ∀ p ∈ (groupForward 2 2 ([((0 : ℚ), (0 : ℚ), (0 : ℚ)), ((1 : ℚ), (0 : ℚ), (0 : ℚ)),
          ((2 : ℚ), (0 : ℚ), (0 : ℚ))] : List Vec3)).1.getD gi [],
        vadd3 p ((groupForward 2 2 ([((0 : ℚ), (0 : ℚ), (0 : ℚ)), ((1 : ℚ), (0 : ℚ), (0 : ℚ)),
          ((2 : ℚ), (0 : ℚ), (0 : ℚ))] : List Vec3)).2.getD gi ((0, 0, 0) : Vec3))
          ∈ ([((0 : ℚ), (0 : ℚ), (0 : ℚ)), ((1 : ℚ), (0 : ℚ), (0 : ℚ)),
          ((2 : ℚ), (0 : ℚ), (0 : ℚ))] : List Vec3))) :=
  ⟨⟨by decide, by decide⟩,
    c2_group_roundtrip 2 2 _ (by decide) (by decide)⟩

/-! ### Attention and transformer blocks

Embedding of `Attention.forward` and `Block.forward`.  Tokens are `ℚ`-vectors;
`torch.exp` (inside softmax) and `nn.GELU` are external numeric primitives and
enter as function parameters, `nn.LayerNorm` and `timm`'s `DropPath` are
external per-token modules and enter as function-valued weights.  The dropout
layers are constructed with rate `0` in this model (`drop_rate`,
`attn_drop_rate` defaults) and are the identity. -/

abbrev Vec := List ℚ

abbrev Mat := List (List ℚ)

def dotQ (a b : List ℚ) : ℚ := (List.zipWith (· * ·) a b).sum

def vaddQ (a b : Vec) : Vec := List.zipWith (· + ·) a b

def matVec (m : Mat) (v : Vec) : Vec := m.map (fun r => dotQ r v)

/-- An `nn.Linear` layer: `W·v + b`. -/
def linear (W : Mat) (b : Vec) (v : Vec) : Vec := vaddQ (matVec W v) b

def vsum : List Vec → Vec
  | [] => []
  | [x] => x
  | x :: xs => vaddQ x (vsum xs)

def scaleVec (c : ℚ) (v : Vec) : Vec := v.map (c * ·)

/-- `softmax` over one attention row, with the exponential supplied as the
external primitive `qexp`. -/
def softmaxRow (qexp : ℚ → ℚ) (r : List ℚ) : List ℚ :=
  (r.map qexp).map (fun x => x / (r.map qexp).sum)

/-- Weights of one `Attention` module: the single shared `qkv` projection, the
output projection, head count, model width and the `q @ k^T` scale. -/
structure AttnW where
  Wqkv : Mat
  bqkv : Vec
  Wproj : Mat
  bproj : Vec
  numHeads : ℕ
  dim : ℕ
  scale : ℚ

/-- `self.qkv(x)`: the shared projection applied to every token. -/
def qkvTokens (A : AttnW) (xs : List Vec) : List Vec :=
  xs.map (linear A.Wqkv A.bqkv)

/-- Head `h`, section `sec` (0 = q, 1 = k, 2 = v) of one token's qkv vector:
the `reshape(B, N, 3, num_heads, C // num_heads)` of the source places entry
`(sec, h, d)` at flat position `sec*C + h*(C/num_heads) + d`. -/
def sliceHead (A : AttnW) (sec h : ℕ) (t : Vec) : Vec :=
  (t.drop (sec * A.dim + h * (A.dim / A.numHeads))).take (A.dim / A.numHeads)

/-- One attention head: per query row, softmax of the scaled dot products
against all keys, then the attention-weighted sum of the value rows. -/
def attnHead (qexp : ℚ → ℚ) (scale : ℚ) (qs ks vs : List Vec) : List Vec :=
  qs.map (fun qi =>
    vsum (List.zipWith scaleVec
      (softmaxRow qexp (ks.map (fun kj => dotQ qi kj * scale))) vs))

/-- Multi-head attention core: queries sliced from `qRows`, keys and values
from `kvRows` (both raw qkv projections); the per-head outputs are
concatenated per query token (`transpose(1, 2).reshape(B, N, C)`) and passed
through the output projection `self.proj`. -/
def attnCore (A : AttnW) (qexp : ℚ → ℚ) (qRows kvRows : List Vec) : List Vec :=
  ((List.range qRows.length).map (fun i =>
      (((List.range A.numHeads).map (fun h =>
        attnHead qexp A.scale (qRows.map (sliceHead A 0 h))
          (kvRows.map (sliceHead A 1 h)) (kvRows.map (sliceHead A 2 h)))).map
        (fun ho => ho.getD i [])).flatten)).map
    (linear A.Wproj A.bproj)

/-- `Attention.forward` with `y = None`: plain self-attention. -/
def attention_self (A : AttnW) (qexp : ℚ → ℚ) (x : List Vec) : List Vec :=
  attnCore A qexp (qkvTokens A x) (qkvTokens A x)

/-- `Attention.forward` with a `y` argument: `x` and `y` are concatenated and
projected once; the cross pass uses rows `N:` as queries against all
keys/values, the self pass uses rows `:N` as queries against keys/values
`:N` only.  Returns `(x_out, y_out)`. -/
def attention_joint (A : AttnW) (qexp : ℚ → ℚ) (x y : List Vec) :
    List Vec × List Vec :=
  (attnCore A qexp ((qkvTokens A (x ++ y)).take x.length)
      ((qkvTokens A (x ++ y)).take x.length),
    attnCore A qexp ((qkvTokens A (x ++ y)).drop x.length) (qkvTokens A (x ++ y)))

/-- Weights of one `Block`: the shared attention module, the two `LayerNorm`s
(external per-token modules), the `Mlp`'s two linear layers, and `DropPath`
(identity at rate 0 / inference, kept abstract since it is applied identically
on every path). -/
structure BlockW where
  A : AttnW
  norm1 : Vec → Vec
  norm2 : Vec → Vec
  W1 : Mat
  b1 : Vec
  W2 : Mat
  b2 : Vec
  dropPath : Vec → Vec

/-- `Mlp.forward`: `fc2(act(fc1(t)))` with the activation (`nn.GELU`) as an
external primitive; the dropout in between has rate 0 here. -/
def mlp (Bw : BlockW) (act : ℚ → ℚ) (t : Vec) : Vec :=
  linear Bw.W2 Bw.b2 ((linear Bw.W1 Bw.b1 t).map act)

def addSeq (a b : List Vec) : List Vec := List.zipWith vaddQ a b

/-- `Block.forward` with `y = None`:
`x + drop_path(attn(norm1(x)))`, then `x + drop_path(mlp(norm2(x)))`. -/
def block_self (Bw : BlockW) (qexp act : ℚ → ℚ) (x : List Vec) : List Vec :=
  addSeq (addSeq x ((attention_self Bw.A qexp (x.map Bw.norm1)).map Bw.dropPath))
    (((addSeq x ((attention_self Bw.A qexp (x.map Bw.norm1)).map Bw.dropPath)).map
        (fun t => mlp Bw act (Bw.norm2 t))).map Bw.dropPath)

/-- `Block.forward` with a `y` sequence: `norm1` on both, the joint attention,
residuals, then the shared `mlp`/`norm2` applied independently to both. -/
def block_joint (Bw : BlockW) (qexp act : ℚ → ℚ) (x y : List Vec) :
    List Vec × List Vec :=
  (addSeq
      (addSeq x (((attention_joint Bw.A qexp (x.map Bw.norm1) (y.map Bw.norm1)).1).map
        Bw.dropPath))
      (((addSeq x (((attention_joint Bw.A qexp (x.map Bw.norm1) (y.map Bw.norm1)).1).map
          Bw.dropPath)).map (fun t => mlp Bw act (Bw.norm2 t))).map Bw.dropPath),
    addSeq
      (addSeq y (((attention_joint Bw.A qexp (x.map Bw.norm1) (y.map Bw.norm1)).2).map
        Bw.dropPath))
      (((addSeq y (((attention_joint Bw.A qexp (x.map Bw.norm1) (y.map Bw.norm1)).2).map
          Bw.dropPath)).map (fun t => mlp Bw act (Bw.norm2 t))).map Bw.dropPath))

theorem attnCore_nil (A : AttnW) (qexp : ℚ → ℚ) (kv : List Vec) :
    attnCore A qexp [] kv = [] := by
  simp [attnCore]

theorem attention_joint_nil (A : AttnW) (qexp : ℚ → ℚ) (x : List Vec) :
    attention_joint A qexp x [] = (attention_self A qexp x, []) := by
  unfold attention_joint attention_self
  rw [List.append_nil]
  have hlen : (qkvTokens A x).length = x.length := by simp [qkvTokens]
  have ht : (qkvTokens A x).take x.length = qkvTokens A x := by
    rw [← hlen, List.take_length]
  have hd : (qkvTokens A x).drop x.length = [] := by
    rw [← hlen, List.drop_length]
  rw [ht, hd, attnCore_nil]

/-- **C3**: calling the joint self+cross `Block` with a `y` of sequence length
0 produces, for `x`, exactly the output of the plain self-attention path of
the same block (same weights), and an empty `y` output. -/
theorem c3_block_empty_cross (Bw : BlockW) (qexp act : ℚ → ℚ) (x y : List Vec)
    (hy : y.length = 0) :
    block_joint Bw qexp act x y = (block_self Bw qexp act x, []) := by
  rw [List.length_eq_zero] at hy
  subst hy
  unfold block_joint block_self
  rw [List.map_nil, attention_joint_nil]
  simp [addSeq]

/-- **C3 witness**: a concrete one-token sequence against an empty `y`, with
1×1 weights and identity primitives. -/
theorem c3_block_empty_cross_witness :
    (([] : List Vec).length = 0) ∧
    block_joint
        ⟨⟨[[1]], [0], [[1]], [0], 1, 1, 1⟩, id, id, [[1]], [0], [[1]], [0], id⟩
        id id [[(1 : ℚ)]] []
      = (block_self
          ⟨⟨[[1]], [0], [[1]], [0], 1, 1, 1⟩, id, id, [[1]], [0], [[1]], [0], id⟩
          id id [[(1 : ℚ)]], []) :=
  ⟨rfl, c3_block_empty_cross _ id id [[(1 : ℚ)]] [] rfl⟩

/-! ### Point encoder (`Encoder.forward`)

The kernel-size-1 convolutions of `first_conv`/`second_conv` act pointwise and
are embedded as per-point linear maps; `nn.BatchNorm1d` at inference applies a
fixed per-channel affine map (`γ/sqrt(running_var+ε)` folded into a scale and
shift); `ReLU` is the pointwise max with 0. -/

def reluVec (v : Vec) : Vec := v.map (fun x => max x 0)

/-- `nn.BatchNorm1d` at inference: per-channel `x ↦ s*x + b`. -/
def bnApply (s b : Vec) (v : Vec) : Vec := vaddQ (List.zipWith (· * ·) s v) b

structure EncoderW where
  W1 : Mat
  c1 : Vec
  bn1s : Vec
  bn1b : Vec
  W2 : Mat
  c2 : Vec
  W3 : Mat
  c3 : Vec
  bn2s : Vec
  bn2b : Vec
  W4 : Mat
  c4 : Vec

/-- `first_conv` on one point: `Conv1d(3,128,1)`, `BatchNorm1d`, `ReLU`,
`Conv1d(128,256,1)`. -/
def firstConv (E : EncoderW) (p : Vec) : Vec :=
  linear E.W2 E.c2 (reluVec (bnApply E.bn1s E.bn1b (linear E.W1 E.c1 p)))

/-- `second_conv` on one (concatenated) feature: `Conv1d(512,512,1)`,
`BatchNorm1d`, `ReLU`, `Conv1d(512,encoder_channel,1)`. -/
def secondConv (E : EncoderW) (p : Vec) : Vec :=
  linear E.W4 E.c4 (reluVec (bnApply E.bn2s E.bn2b (linear E.W3 E.c3 p)))

/-- `torch.max(·, dim=2)`: componentwise maximum over the points of a group. -/
def maxPool : List Vec → Vec
  | [] => []
  | h :: t => t.foldl (fun a b => List.zipWith max a b) h

/-- `Encoder.forward` on one group: lift every point, max-pool to the global
descriptor, concatenate `[descriptor; local feature]` per point
(`torch.cat([feature_global.expand(...), feature], dim=1)`), lift again,
max-pool again. -/
def encGroup (E : EncoderW) (pts : List Vec) : Vec :=
  maxPool ((pts.map (firstConv E)).map
    (fun f => secondConv E (maxPool (pts.map (firstConv E)) ++ f)))

/-- `Encoder.forward` over the `G` groups of one cloud. -/
def encoderForward (E : EncoderW) (groups : List (List Vec)) : List Vec :=
  groups.map (encGroup E)

/-- `Encoder.forward` over a batch (`B G M 3 → B G C`; the `bs*g` reshape of
the source only flattens the two leading dimensions for the convolutions). -/
def encoderBatch (E : EncoderW) (clouds : List (List (List Vec))) :
    List (List Vec) :=
  clouds.map (encoderForward E)

theorem zipWith_max_comm (a b : Vec) :
    List.zipWith max a b = List.zipWith max b a := by
  induction a generalizing b with
  | nil => cases b <;> simp
  | cons ah as ih =>
    cases b with
    | nil => simp
    | cons bh bs =>
      simp only [List.zipWith_cons_cons]
      rw [max_comm, ih]

theorem zipWith_max_right_comm (b x y : Vec) :
    List.zipWith max (List.zipWith max b x) y
      = List.zipWith max (List.zipWith max b y) x := by
  induction b generalizing x y with
  | nil => simp
  | cons bh bt ih =>
    cases x with
    | nil =>
      cases y <;> simp
    | cons xh xt =>
      cases y with
      | nil => simp
      | cons yh yt =>
        simp only [List.zipWith_cons_cons]
        rw [sup_right_comm, ih]

theorem foldl_zipmax_perm {l l' : List Vec} (h : List.Perm l l') (b : Vec) :
    l.foldl (fun a c => List.zipWith max a c) b
      = l'.foldl (fun a c => List.zipWith max a c) b := by
  induction h generalizing b with
  | nil => rfl
  | cons x _ ih =>
    simp only [List.foldl_cons]
    exact ih _
  | swap x y l =>
    simp only [List.foldl_cons]
    rw [zipWith_max_right_comm]
  | trans _ _ ih₁ ih₂ => exact (ih₁ b).trans (ih₂ b)

theorem maxPool_perm {l l' : List Vec} (h : List.Perm l l') :
    maxPool l = maxPool l' := by
  induction h with
  | nil => rfl
  | cons x h ih =>
    simp only [maxPool]
    exact foldl_zipmax_perm h x
  | swap x y l =>
    simp only [maxPool, List.foldl_cons]
    rw [zipWith_max_comm]
  | trans h₁ h₂ ih₁ ih₂ => exact ih₁.trans ih₂

theorem encGroup_perm (E : EncoderW) {pts pts' : List Vec}
    (h : List.Perm pts pts') :
    encGroup E pts = encGroup E pts' := by
  unfold encGroup
  have h1 : List.Perm (pts.map (firstConv E)) (pts'.map (firstConv E)) := h.map _
  have hg : maxPool (pts.map (firstConv E)) = maxPool (pts'.map (firstConv E)) :=
    maxPool_perm h1
  have h2 : List.Perm
      ((pts.map (firstConv E)).map
        (fun f => secondConv E (maxPool (pts.map (firstConv E)) ++ f)))
      ((pts'.map (firstConv E)).map
        (fun f => secondConv E (maxPool (pts'.map (firstConv E)) ++ f))) := by
    rw [hg]
    exact h1.map _
  exact maxPool_perm h2

theorem encoderForward_perm (E : EncoderW) {gs gs' : List (List Vec)}
    (h : List.Forall₂ (fun g g' => List.Perm g g') gs gs') :
    encoderForward E gs = encoderForward E gs' := by
  unfold encoderForward
  induction h with
  | nil => rfl
  | cons hp _ ih =>
    simp only [List.map_cons]
    rw [encGroup_perm E hp]
    rw [ih]

/-- **C4**: the encoder's `B×G×C` output is unchanged when the points inside
any of the groups are permuted (each group of the second batch is a
permutation of the corresponding group of the first). -/
theorem c4_encoder_perm_invariant (E : EncoderW)
    (clouds clouds' : List (List (List Vec)))
    (h : List.Forall₂ (List.Forall₂ (fun g g' => List.Perm g g')) clouds clouds') :
    encoderBatch E clouds = encoderBatch E clouds' := by
  unfold encoderBatch
  induction h with
  | nil => rfl
  | cons hcl _ ih =>
    simp only [List.map_cons]
    rw [encoderForward_perm E hcl]
    rw [ih]

/-- **C4 witness**: one cloud with one group of two points, swapped. -/
theorem c4_encoder_perm_invariant_witness :
    List.Forall₂ (List.Forall₂ (fun g g' => List.Perm g g'))
      [[[[(1 : ℚ), 0, 0], [(0 : ℚ), 1, 0]]]] [[[[(0 : ℚ), 1, 0], [(1 : ℚ), 0, 0]]]] ∧
    encoderBatch
        ⟨[[1, 0, 0]], [0], [1], [0], [[1]], [0], [[1, 1]], [0], [1], [0], [[1, 1]], [0]⟩
        [[[[(1 : ℚ), 0, 0], [(0 : ℚ), 1, 0]]]]
      = encoderBatch
        ⟨[[1, 0, 0]], [0], [1], [0], [[1]], [0], [[1, 1]], [0], [1], [0], [[1, 1]], [0]⟩
        [[[[(0 : ℚ), 1, 0], [(1 : ℚ), 0, 0]]]] := by
  have hperm : List.Forall₂ (List.Forall₂ (fun g g' => List.Perm g g'))
      [[[[(1 : ℚ), 0, 0], [(0 : ℚ), 1, 0]]]] [[[[(0 : ℚ), 1, 0], [(1 : ℚ), 0, 0]]]] :=
    List.Forall₂.cons
      (List.Forall₂.cons (List.Perm.swap _ _ _) List.Forall₂.nil)
      List.Forall₂.nil
  exact ⟨hperm, c4_encoder_perm_invariant _ _ _ hperm⟩

/-! ### Loss construction (`PCP_MAE.build_loss_func`, called from `__init__`) -/

/-- The two supported set-distance losses (`ChamferDistanceL1`,
`ChamferDistanceL2` from `extensions.chamfer_dist`, external collaborators). -/
inductive LossKind
  | cdl1
  | cdl2
  deriving DecidableEq

/-- `PCP_MAE.build_loss_func`: `cdl1 ↦ ChamferDistanceL1`,
`cdl2 ↦ ChamferDistanceL2`, anything else raises `NotImplementedError`. -/
def build_loss_func (loss_type : String) : Except String LossKind :=
  if loss_type = "cdl1" then Except.ok LossKind.cdl1
  else if loss_type = "cdl2" then Except.ok LossKind.cdl2
  else Except.error "NotImplementedError"

/-- The construction-time state relevant to C8. -/
structure PCPMAEInit where
  group_size : ℕ
  num_group : ℕ
  loss_func : LossKind

/-- `PCP_MAE.__init__` calls `self.build_loss_func(self.loss)` before
returning (line 555), so an unsupported loss name escapes the constructor
itself and no model object exists for a later forward call. -/
def pcp_mae_init (group_size num_group : ℕ) (loss : String) :
    Except String PCPMAEInit :=
  (build_loss_func loss).map (fun k => ⟨group_size, num_group, k⟩)

/-- **C8**: constructing `PCP_MAE` with a loss name other than `cdl1`/`cdl2`
fails immediately inside `__init__` (fail fast, not deferred), while `cdl1`
and `cdl2` select the L1-type and L2-type set distance respectively. -/
theorem c8_loss_construction (gs ng : ℕ) (loss : String)
    (h : loss ≠ "cdl1" ∧ loss ≠ "cdl2") :
    pcp_mae_init gs ng loss = Except.error "NotImplementedError" ∧
    pcp_mae_init gs ng "cdl1" = Except.ok ⟨gs, ng, LossKind.cdl1⟩ ∧
    pcp_mae_init gs ng "cdl2" = Except.ok ⟨gs, ng, LossKind.cdl2⟩ := by
  refine ⟨?_, ?_, ?_⟩
  · unfold pcp_mae_init build_loss_func
    rw [if_neg h.1, if_neg h.2]
    rfl
  · unfold pcp_mae_init build_loss_func
    rw [if_pos rfl]
    rfl
  · unfold pcp_mae_init build_loss_func
    rw [if_neg (by decide), if_pos rfl]
    rfl

/-- **C8 witness**: the unsupported name `emd` (the commented-out variant in
the source). -/
theorem c8_loss_construction_witness :
    (("emd" : String) ≠ "cdl1" ∧ ("emd" : String) ≠ "cdl2") ∧
    (pcp_mae_init 32 64 "emd" = Except.error "NotImplementedError" ∧
     pcp_mae_init 32 64 "cdl1" = Except.ok ⟨32, 64, LossKind.cdl1⟩ ∧
     pcp_mae_init 32 64 "cdl2" = Except.ok ⟨32, 64, LossKind.cdl2⟩) :=
  ⟨⟨by decide, by decide⟩, c8_loss_construction 32 64 "emd" ⟨by decide, by decide⟩⟩

/-! ### Forward-pass shapes (`PCP_MAE.forward`, `TransformerDecoder.forward`)

The token counts of `PCP_MAE.forward`: `x_mask = tokens[mask].reshape(B,-1,C)`
resolves the inferred dimension to (total true entries)/B, `x_vis` likewise
with the false entries; the decoder is called with `return_token_num = M` and
`self.norm(x[:, -M:])` keeps the last `M` tokens; `increase_dim` emits
`3*group_size` values per token and `reshape(B*M, -1, 3)` infers the middle
dimension from the element count. -/

/-- Masked token count: the inferred dimension of
`x_mask.reshape(batch_size, -1, C)`. -/
def maskedTokens (B : ℕ) (mask : List (List Bool)) : ℕ :=
  (mask.map countTrue).sum / B

/-- Visible token count: the inferred dimension of
`x_vis.reshape(batch_size, -1, C)`. -/
def visibleTokens (B : ℕ) (mask : List (List Bool)) : ℕ :=
  (mask.map (fun r => r.length - countTrue r)).sum / B

/-- torch's inferred `-1` dimension of a 3-d reshape. -/
def inferMiddle (numel d0 d2 : ℕ) : ℕ := numel / (d0 * d2)

/-- `(visible count, masked count, shape of rebuild_points)` for one forward
call with the given mask. -/
def pcpForwardShapes (B gs : ℕ) (mask : List (List Bool)) :
    ℕ × ℕ × (ℕ × ℕ × ℕ) :=
  (visibleTokens B mask, maskedTokens B mask,
    (B * maskedTokens B mask,
      inferMiddle (B * maskedTokens B mask * (3 * gs)) (B * maskedTokens B mask) 3,
      3))

theorem pcpForwardShapes_uniform (B G gs m : ℕ) (mask : List (List Bool))
    (hB : 1 ≤ B) (hm : 1 ≤ m) (hrows : mask.length = B)
    (hcount : ∀ row ∈ mask, row.length = G ∧ countTrue row = m) :
    pcpForwardShapes B gs mask = (G - m, m, (B * m, gs, 3)) := by
  have hcounts : mask.map countTrue = List.replicate B m := by
    rw [List.eq_replicate_iff]
    refine ⟨by simp [hrows], ?_⟩
    intro b hb
    obtain ⟨row, hrowm, rfl⟩ := List.mem_map.mp hb
    exact (hcount row hrowm).2
  have hvis : mask.map (fun r => r.length - countTrue r)
      = List.replicate B (G - m) := by
    rw [List.eq_replicate_iff]
    refine ⟨by simp [hrows], ?_⟩
    intro b hb
    obtain ⟨row, hrowm, rfl⟩ := List.mem_map.mp hb
    rw [(hcount row hrowm).1, (hcount row hrowm).2]
  have hM : maskedTokens B mask = m := by
    unfold maskedTokens
    rw [hcounts, List.sum_replicate, smul_eq_mul, Nat.mul_div_cancel_left m hB]
  have hV : visibleTokens B mask = G - m := by
    unfold visibleTokens
    rw [hvis, List.sum_replicate, smul_eq_mul, Nat.mul_div_cancel_left (G - m) hB]
  have hmid : inferMiddle (B * m * (3 * gs)) (B * m) 3 = gs := by
    unfold inferMiddle
    have h1 : B * m * (3 * gs) = B * m * 3 * gs := by ring
    rw [h1, Nat.mul_div_cancel_left gs (by positivity)]
  unfold pcpForwardShapes
  rw [hM, hV, hmid]

/-- **C9**: in general the forward pass rebuilds a `(B * masked_count,
group_size, 3)` tensor from `G - masked_count` visible and `masked_count`
masked tokens; for `B = 2`, `N = 1024` points, `group_size = 32`,
`num_group = 64`, `mask_ratio = 0.6` and any shuffle, the counts are 26
visible / 38 masked and `rebuild_points` has shape `(76, 32, 3)`. -/
theorem c9_forward_shapes (B G gs m : ℕ) (mask : List (List Bool))
    (σ : Fin 2 → Equiv.Perm (Fin 64))
    (hB : 1 ≤ B) (hm : 1 ≤ m) (hrows : mask.length = B)
    (hcount : ∀ row ∈ mask, row.length = G ∧ countTrue row = m) :
    pcpForwardShapes B gs mask = (G - m, m, (B * m, gs, 3)) ∧
    pcpForwardShapes 2 32 (mask_center_rand (3/5) false 2 64 σ)
      = (26, 38, (76, 32, 3)) := by
  constructor
  · exact pcpForwardShapes_uniform B G gs m mask hB hm hrows hcount
  · have h38 : maskNum (3/5) 64 = 38 := by with_unfolding_all rfl
    have hne : ¬ (false = true ∨ (3/5 : ℚ) = 0) := by
      rintro (hx | hx)
      · exact Bool.false_ne_true hx
      · norm_num at hx
    have := pcpForwardShapes_uniform 2 64 32 38
      (mask_center_rand (3/5) false 2 64 σ) (by norm_num) (by norm_num)
      (by rw [mask_center_rand, if_neg hne]; simp)
      (by
        intro row hrow
        rw [mask_center_rand, if_neg hne] at hrow
        obtain ⟨b, _, rfl⟩ := List.mem_map.mp hrow
        constructor
        · simp [maskRowRand]
        · rw [countTrue_maskRowRand 64 (maskNum (3/5) 64)
            (maskNum_le _ _ (by norm_num)) (σ b), h38])
    simpa using this

/-- **C9 witness**: instantiated at a 1×1 all-true mask. -/
theorem c9_forward_shapes_witness :
    (1 ≤ 1 ∧ 1 ≤ 1 ∧ ([[true]] : List (List Bool)).length = 1 ∧
      (∀ row ∈ ([[true]] : List (List Bool)), row.length = 1 ∧ countTrue row = 1)) ∧
    (pcpForwardShapes 1 1 [[true]] = (0, 1, (1, 1, 3)) ∧
     pcpForwardShapes 2 32
        (mask_center_rand (3/5) false 2 64 (fun _ => Equiv.refl (Fin 64)))
        = (26, 38, (76, 32, 3))) :=
  ⟨⟨le_refl 1, le_refl 1, rfl, by decide⟩,
    by
      have h := c9_forward_shapes 1 1 1 1 [[true]]
        (fun _ => Equiv.refl (Fin 64)) (le_refl 1) (le_refl 1) rfl (by decide)
      simpa using h⟩

/-! ### Rasterization (`PCP_MAE.proj2img`)

The source computes in float32.  The only operation of the pipeline that can
produce a non-finite value is the per-point division by `grid_size`
(`0/0 = NaN` when the cloud's 2-D bounding box has zero extent); all other
arithmetic is on finite values.  The embedding therefore carries exact `ℚ`
payloads inside an IEEE-style carrier `RF` with `nan`/`±inf` and the float
comparison rules: any comparison against NaN is false, and the `torch.min` /
`torch.max` reductions propagate NaN. -/

inductive RF
  | fin (q : ℚ)
  | nan
  | inf
  | ninf
  deriving DecidableEq

def rfNeg : RF → RF
  | .fin q => .fin (-q)
  | .nan => .nan
  | .inf => .ninf
  | .ninf => .inf

def rfAdd : RF → RF → RF
  | .fin a, .fin b => .fin (a + b)
  | .nan, _ => .nan
  | _, .nan => .nan
  | .inf, .ninf => .nan
  | .ninf, .inf => .nan
  | .inf, _ => .inf
  | _, .inf => .inf
  | .ninf, _ => .ninf
  | _, .ninf => .ninf

def rfSub (a b : RF) : RF := rfAdd a (rfNeg b)

def rfMul : RF → RF → RF
  | .fin a, .fin b => .fin (a * b)
  | .nan, _ => .nan
  | _, .nan => .nan
  | .inf, .inf => .inf
  | .inf, .ninf => .ninf
  | .ninf, .inf => .ninf
  | .ninf, .ninf => .inf
  | .fin a, .inf => if a = 0 then .nan else if 0 < a then .inf else .ninf
  | .fin a, .ninf => if a = 0 then .nan else if 0 < a then .ninf else .inf
  | .inf, .fin b => if b = 0 then .nan else if 0 < b then .inf else .ninf
  | .ninf, .fin b => if b = 0 then .nan else if 0 < b then .ninf else .inf

def rfDiv : RF → RF → RF
  | .fin a, .fin b =>
    if b = 0 then (if a = 0 then .nan else if 0 < a then .inf else .ninf)
    else .fin (a / b)
  | .nan, _ => .nan
  | _, .nan => .nan
  | .inf, .inf => .nan
  | .inf, .ninf => .nan
  | .ninf, .inf => .nan
  | .ninf, .ninf => .nan
  | .fin _, .inf => .fin 0
  | .fin _, .ninf => .fin 0
  | .inf, .fin b => if 0 ≤ b then .inf else .ninf
  | .ninf, .fin b => if 0 ≤ b then .ninf else .inf

def rfFloor : RF → RF
  | .fin q => .fin ((⌊q⌋ : ℤ) : ℚ)
  | x => x

/-- Float `<` as a boolean: false whenever NaN is involved. -/
def rfLtB : RF → RF → Bool
  | .fin a, .fin b => decide (a < b)
  | .nan, _ => false
  | _, .nan => false
  | .ninf, .ninf => false
  | .inf, .inf => false
  | .ninf, _ => true
  | _, .inf => true
  | _, _ => false

/-- Float `≤` as a boolean: false whenever NaN is involved. -/
def rfLeB : RF → RF → Bool
  | .fin a, .fin b => decide (a ≤ b)
  | .nan, _ => false
  | _, .nan => false
  | .ninf, _ => true
  | _, .inf => true
  | _, _ => false

/-- `torch.max` on two elements, NaN-propagating. -/
def rfMax2 (a b : RF) : RF :=
  if a = .nan ∨ b = .nan then .nan else if rfLeB a b then b else a

/-- `torch.min` on two elements, NaN-propagating. -/
def rfMin2 (a b : RF) : RF :=
  if a = .nan ∨ b = .nan then .nan else if rfLeB a b then a else b

/-- `torch.max` reduction (never called on `[]`: torch raises there). -/
def rfListMax : List RF → RF
  | [] => .nan
  | h :: t => t.foldl rfMax2 h

def rfListMin : List RF → RF
  | [] => .nan
  | h :: t => t.foldl rfMin2 h

theorem rfAdd_fin (a b : ℚ) : rfAdd (.fin a) (.fin b) = .fin (a + b) := rfl

theorem rfMul_fin (a b : ℚ) : rfMul (.fin a) (.fin b) = .fin (a * b) := rfl

theorem rfSub_fin (a b : ℚ) : rfSub (.fin a) (.fin b) = .fin (a - b) := by
  rw [rfSub]
  show rfAdd (.fin a) (.fin (-b)) = _
  rw [rfAdd_fin]
  congr 1
  ring

/-- `.int()` / `.long()`: truncation toward zero.  Casting NaN or ±Inf is
undefined behavior in torch; the model returns `0` there — the choice is
irrelevant because every use either is gated by the bounds assertion or feeds
a value that is subsequently added to a NaN. -/
def rfToIntTrunc : RF → ℤ
  | .fin q => if 0 ≤ q then ⌊q⌋ else ⌈q⌉
  | _ => 0

/-- `torch.max`/`torch.min` reduction over finite values (used where the
operands are a priori finite); `0` on `[]`, which torch rejects anyway. -/
def listMax {α : Type*} [LinearOrder α] [Zero α] : List α → α
  | [] => 0
  | h :: t => t.foldl max h

def listMin {α : Type*} [LinearOrder α] [Zero α] : List α → α
  | [] => 0
  | h :: t => t.foldl min h

theorem foldl_max_init_le {α : Type*} [LinearOrder α] (t : List α) (a : α) :
    a ≤ t.foldl max a := by
  induction t generalizing a with
  | nil => exact le_refl a
  | cons h tl ih =>
    simp only [List.foldl_cons]
    exact le_trans (le_max_left a h) (ih (max a h))

theorem foldl_max_le {α : Type*} [LinearOrder α] (t : List α) (a x : α)
    (hx : x ∈ t) : x ≤ t.foldl max a := by
  induction t generalizing a with
  | nil => exact absurd hx (List.not_mem_nil x)
  | cons h tl ih =>
    simp only [List.foldl_cons]
    rcases List.mem_cons.mp hx with rfl | hx'
    · exact le_trans (le_max_right a x) (foldl_max_init_le tl (max a x))
    · exact ih (max a h) hx'

theorem foldl_min_init_le {α : Type*} [LinearOrder α] (t : List α) (a : α) :
    t.foldl min a ≤ a := by
  induction t generalizing a with
  | nil => exact le_refl a
  | cons h tl ih =>
    simp only [List.foldl_cons]
    exact le_trans (ih (min a h)) (min_le_left a h)

theorem foldl_min_le {α : Type*} [LinearOrder α] (t : List α) (a x : α)
    (hx : x ∈ t) : t.foldl min a ≤ x := by
  induction t generalizing a with
  | nil => exact absurd hx (List.not_mem_nil x)
  | cons h tl ih =>
    simp only [List.foldl_cons]
    rcases List.mem_cons.mp hx with rfl | hx'
    · exact le_trans (foldl_min_init_le tl (min a x)) (min_le_right a x)
    · exact ih (min a h) hx'

theorem le_listMax {α : Type*} [LinearOrder α] [Zero α] {l : List α} {x : α}
    (hx : x ∈ l) : x ≤ listMax l := by
  cases l with
  | nil => exact absurd hx (List.not_mem_nil x)
  | cons h t =>
    rcases List.mem_cons.mp hx with rfl | hx'
    · exact foldl_max_init_le t x
    · exact foldl_max_le t h x hx'

theorem listMin_le {α : Type*} [LinearOrder α] [Zero α] {l : List α} {x : α}
    (hx : x ∈ l) : listMin l ≤ x := by
  cases l with
  | nil => exact absurd hx (List.not_mem_nil x)
  | cons h t =>
    rcases List.mem_cons.mp hx with rfl | hx'
    · exact foldl_min_init_le t x
    · exact foldl_min_le t h x hx'

theorem foldl_max_mem {α : Type*} [LinearOrder α] (t : List α) (a : α) :
    t.foldl max a = a ∨ t.foldl max a ∈ t := by
  induction t generalizing a with
  | nil => exact Or.inl rfl
  | cons h tl ih =>
    simp only [List.foldl_cons]
    rcases ih (max a h) with he | hm
    · rw [he]
      rcases max_choice a h with hc | hc
      · exact Or.inl hc
      · exact Or.inr (by rw [hc]; exact List.mem_cons_self h tl)
    · exact Or.inr (List.mem_cons_of_mem h hm)

theorem listMax_mem {α : Type*} [LinearOrder α] [Zero α] {l : List α}
    (hl : l ≠ []) : listMax l ∈ l := by
  cases l with
  | nil => exact absurd rfl hl
  | cons h t =>
    rcases foldl_max_mem t h with he | hm
    · rw [listMax, he]; exact List.mem_cons_self h t
    · exact List.mem_cons_of_mem h hm

theorem foldl_min_mem {α : Type*} [LinearOrder α] (t : List α) (a : α) :
    t.foldl min a = a ∨ t.foldl min a ∈ t := by
  induction t generalizing a with
  | nil => exact Or.inl rfl
  | cons h tl ih =>
    simp only [List.foldl_cons]
    rcases ih (min a h) with he | hm
    · rw [he]
      rcases min_choice a h with hc | hc
      · exact Or.inl hc
      · exact Or.inr (by rw [hc]; exact List.mem_cons_self h tl)
    · exact Or.inr (List.mem_cons_of_mem h hm)

theorem listMin_mem {α : Type*} [LinearOrder α] [Zero α] {l : List α}
    (hl : l ≠ []) : listMin l ∈ l := by
  cases l with
  | nil => exact absurd rfl hl
  | cons h t =>
    rcases foldl_min_mem t h with he | hm
    · rw [listMin, he]; exact List.mem_cons_self h t
    · exact List.mem_cons_of_mem h hm

theorem rfMax2_fin (a b : ℚ) : rfMax2 (.fin a) (.fin b) = .fin (max a b) := by
  rw [rfMax2, if_neg (by simp), rfLeB]
  rcases le_total a b with h | h
  · rw [if_pos (by simpa using h), max_eq_right h]
  · by_cases he : a ≤ b
    · rw [if_pos (by simpa using he), max_eq_right he]
    · rw [if_neg (by simpa using he), max_eq_left h]

theorem rfMin2_fin (a b : ℚ) : rfMin2 (.fin a) (.fin b) = .fin (min a b) := by
  rw [rfMin2, if_neg (by simp), rfLeB]
  rcases le_total a b with h | h
  · rw [if_pos (by simpa using h), min_eq_left h]
  · by_cases he : a ≤ b
    · rw [if_pos (by simpa using he), min_eq_left he]
    · rw [if_neg (by simpa using he), min_eq_right h]

theorem rfListMax_map_fin (f : List ℚ) (hne : f ≠ []) :
    rfListMax (f.map RF.fin) = .fin (listMax f) := by
  cases f with
  | nil => exact absurd rfl hne
  | cons h t =>
    rw [List.map_cons, rfListMax, listMax]
    clear hne
    induction t generalizing h with
    | nil => rfl
    | cons h2 t2 ih =>
      simp only [List.map_cons, List.foldl_cons]
      rw [rfMax2_fin]
      exact ih (max h h2)

theorem rfListMin_map_fin (f : List ℚ) (hne : f ≠ []) :
    rfListMin (f.map RF.fin) = .fin (listMin f) := by
  cases f with
  | nil => exact absurd rfl hne
  | cons h t =>
    rw [List.map_cons, rfListMin, listMin]
    clear hne
    induction t generalizing h with
    | nil => rfl
    | cons h2 t2 ih =>
      simp only [List.map_cons, List.foldl_cons]
      rw [rfMin2_fin]
      exact ih (min h h2)

theorem listMax_intCast (dz : List ℤ) (hne : dz ≠ []) :
    listMax (dz.map (fun z : ℤ => (z : ℚ))) = ((listMax dz : ℤ) : ℚ) := by
  cases dz with
  | nil => exact absurd rfl hne
  | cons h t =>
    rw [List.map_cons, listMax, listMax]
    clear hne
    induction t generalizing h with
    | nil => rfl
    | cons h2 t2 ih =>
      simp only [List.map_cons, List.foldl_cons]
      rw [← Int.cast_max]
      exact ih (max h h2)

theorem listMin_intCast (dz : List ℤ) (hne : dz ≠ []) :
    listMin (dz.map (fun z : ℤ => (z : ℚ))) = ((listMin dz : ℤ) : ℚ) := by
  cases dz with
  | nil => exact absurd rfl hne
  | cons h t =>
    rw [List.map_cons, listMin, listMin]
    clear hne
    induction t generalizing h with
    | nil => rfl
    | cons h2 t2 ih =>
      simp only [List.map_cons, List.foldl_cons]
      rw [← Int.cast_min]
      exact ih (min h h2)

theorem rfDiv_fin (a b : ℚ) (hb : b ≠ 0) : rfDiv (.fin a) (.fin b) = .fin (a / b) := by
  have h : rfDiv (.fin a) (.fin b)
      = if b = 0 then (if a = 0 then RF.nan else if 0 < a then RF.inf else RF.ninf)
        else .fin (a / b) := rfl
  rw [h, if_neg hb]

theorem rfFloor_fin (q : ℚ) : rfFloor (.fin q) = .fin ((⌊q⌋ : ℤ) : ℚ) := rfl

theorem rfToIntTrunc_intCast (z : ℤ) : rfToIntTrunc (.fin (z : ℚ)) = z := by
  rw [rfToIntTrunc]
  by_cases hz : (0 : ℚ) ≤ (z : ℚ)
  · rw [if_pos hz, Int.floor_intCast]
  · rw [if_neg hz, Int.ceil_intCast]

/-! #### The projection pipeline, per cloud

The batch dimension of `proj2img` maps each cloud independently (the shared
`scatter` output size only changes how much zero padding a row receives), so
the embedding is per cloud. -/

/-- `grid_size = pc_range[:, :2].max(dim=-1)[0] / (self.img_size - 3)`; these
reductions act on finite inputs and are exact. -/
def gridSize (pc : List Vec3) : ℚ :=
  max (listMax (pc.map (fun p => p.1)) - listMin (pc.map (fun p => p.1)))
      (listMax (pc.map (fun p => p.2.1)) - listMin (pc.map (fun p => p.2.1))) / 221

/-- `torch.floor((pc[:, :, 0] - pc_min_x) / grid_size)`: the division that
produces NaN (`0/0`) on clouds of zero 2-D extent. -/
def idxX (pc : List Vec3) (p : Vec3) : RF :=
  rfFloor (rfDiv (.fin (p.1 - listMin (pc.map (fun q => q.1))))
    (.fin (gridSize pc)))

def idxY (pc : List Vec3) (p : Vec3) : RF :=
  rfFloor (rfDiv (.fin (p.2.1 - listMin (pc.map (fun q => q.2.1))))
    (.fin (gridSize pc)))

/-- `self.img_offset`: the 25 offsets of the 5×5 densification neighborhood,
in source order. -/
def imgOffset : List (ℤ × ℤ) :=
  [(-2, -2), (-2, -1), (-2, 0), (-2, 1), (-2, 2),
   (-1, -2), (-1, -1), (-1, 0), (-1, 1), (-1, 2),
   (0, -2), (0, -1), (0, 0), (0, 1), (0, 2),
   (1, -2), (1, -1), (1, 0), (1, 1), (1, 2),
   (2, -2), (2, -1), (2, 0), (2, 1), (2, 2)]

/-- `idx_xy_dense = (idx_xy.unsqueeze(2) + offset).view(B, N*25, 2) + 1`:
points major, offsets minor. -/
def idxDense (pc : List Vec3) : List (RF × RF) :=
  (pc.map (fun p => imgOffset.map (fun o =>
    (rfAdd (rfAdd (idxX pc p) (.fin (o.1 : ℚ))) (.fin 1),
     rfAdd (rfAdd (idxY pc p) (.fin (o.2 : ℚ))) (.fin 1))))).flatten

/-- `f_dense`: the z coordinate of every replicated point (the
`repeat(1, 1, 3)` broadcast to 3 channels happens when the image is
assembled). -/
def fDense (pc : List Vec3) : List ℚ :=
  (pc.map (fun p => List.replicate 25 p.2.2)).flatten

/-- `idx_xy_dense_center = torch.floor((max + min) / 2).int()`, x
coordinate. -/
def centerX (pc : List Vec3) : ℤ :=
  rfToIntTrunc (rfFloor (rfDiv
    (rfAdd (rfListMax ((idxDense pc).map (fun v => v.1)))
      (rfListMin ((idxDense pc).map (fun v => v.1)))) (.fin 2)))

def centerY (pc : List Vec3) : ℤ :=
  rfToIntTrunc (rfFloor (rfDiv
    (rfAdd (rfListMax ((idxDense pc).map (fun v => v.2)))
      (rfListMin ((idxDense pc).map (fun v => v.2)))) (.fin 2)))

/-- `offset_x = self.img_size / 2 - idx_xy_dense_center[:, 0:1] - 1`. -/
def offsetX (pc : List Vec3) : ℤ := 112 - centerX pc - 1

def offsetY (pc : List Vec3) : ℤ := 112 - centerY pc - 1

def idxDenseOffset (pc : List Vec3) : List (RF × RF) :=
  (idxDense pc).map (fun v =>
    (rfAdd v.1 (.fin (offsetX pc : ℚ)), rfAdd v.2 (.fin (offsetY pc : ℚ))))

/-- `idx_zero = idx < 0`, `idx_obj = idx > 223`, then
`idx + idx_zero.int() - idx_obj.int()` (NaN compares false on both sides and
passes through unchanged). -/
def clipRF (v : RF) : RF :=
  rfSub (rfAdd v (.fin (if rfLtB v (.fin 0) then 1 else 0)))
    (.fin (if rfLtB (.fin 223) v then 1 else 0))

def clippedOffsets (pc : List Vec3) : List (RF × RF) :=
  (idxDenseOffset pc).map (fun v => (clipRF v.1, clipRF v.2))

/-- `assert idx_xy_dense_offset.min() >= 0 and idx_xy_dense_offset.max() <=
(self.img_size - 1)`, the min/max ranging over both coordinates. -/
def assertCond (pc : List Vec3) : Bool :=
  rfLeB (.fin 0) (rfListMin ((clippedOffsets pc).map (fun v => v.1)
      ++ (clippedOffsets pc).map (fun v => v.2)))
    && rfLeB (rfListMax ((clippedOffsets pc).map (fun v => v.1)
      ++ (clippedOffsets pc).map (fun v => v.2))) (.fin 223)

/-- `new_idx = idx_x * img_size + idx_y`, cast by `.long()` at the scatter
call. -/
def flatIdxs (pc : List Vec3) : List ℕ :=
  (clippedOffsets pc).map (fun v =>
    (rfToIntTrunc (rfAdd (rfMul v.1 (.fin 224)) v.2)).toNat)

/-- `torch_scatter.scatter(..., dim=1, reduce='sum')` without `dim_size`
(external collaborator, per its documented semantics): output length
`max(index) + 1`; cell `i` holds the sum of the source values whose index is
`i`, `0` where none land. -/
def scatterSum (idxs : List ℕ) (vals : List ℚ) : List ℚ :=
  (List.range (idxs.foldr max 0 + 1)).map (fun i =>
    (((List.zip idxs vals).filter (fun p => decide (p.1 = i))).map
      (fun p => p.2)).sum)

/-- The flat `224*224` cell vector: the scatter output zero-padded to the full
image (`torch.cat([out, zero_pad], dim=1)`). -/
def rasterFlat (pc : List Vec3) : List ℚ :=
  if (scatterSum (flatIdxs pc) (fDense pc)).length < 224 * 224 then
    scatterSum (flatIdxs pc) (fDense pc)
      ++ List.replicate (224 * 224 - (scatterSum (flatIdxs pc) (fDense pc)).length) 0
  else scatterSum (flatIdxs pc) (fDense pc)

def imgMean : List ℚ := [485/1000, 456/1000, 406/1000]

def imgStd : List ℚ := [229/1000, 224/1000, 225/1000]

/-- `PCP_MAE.proj2img` on one cloud.  `none` models the `AssertionError` of
the bounds assertion.  On success: reshape to `224 × 224 (× 3)`, permute to
channel-first, `nn.Sigmoid` (external primitive `sig`), then per-channel
`(x - mean) / std`.  The three channels of `f_dense` hold identical copies of
z, so the raster is computed once and broadcast across the channel
dimension. -/
def proj2img (sig : ℚ → ℚ) (pc : List Vec3) : Option (List (List (List ℚ))) :=
  if assertCond pc then
    some ((List.range 3).map (fun ch =>
      (List.range 224).map (fun r =>
        (List.range 224).map (fun c =>
          (sig ((rasterFlat pc).getD (r * 224 + c) 0) - imgMean.getD ch 0)
            / imgStd.getD ch 0))))
  else none

set_option maxRecDepth 100000 in
/-- **C5 counterexample**: on a non-empty cloud whose points all coincide
(zero 2-D extent), `grid_size = 0`, the per-point division is `0/0 = NaN`,
NaN propagates through densification/recentering/clipping, and the bounds
assertion fails — `proj2img` raises an `AssertionError` and returns no
`224×224×3` pseudo-image at all. -/
theorem c5_counterexample :
    proj2img (fun q => q)
      [((1 : ℚ), (1 : ℚ), (1 : ℚ)), ((1 : ℚ), (1 : ℚ), (1 : ℚ))] = none := by
  with_unfolding_all rfl

set_option maxRecDepth 100000 in
/-- **C6 counterexample**: for the degenerate one-point cloud the normalized
output image does not exist at all — the NaN indices make the bounds
assertion fail, so no (finite or otherwise) pixel values are returned. -/
theorem c6_counterexample :
    proj2img (fun q => q) [((0 : ℚ), (0 : ℚ), (0 : ℚ))] = none := by
  with_unfolding_all rfl

set_option maxRecDepth 100000 in
/-- **C7 counterexample**: on a degenerate cloud the clipping step leaves the
indices as NaN (both comparisons against NaN are false), so after clipping the
indices do NOT all lie in `[0, 223]` and the bounds assertion fails. -/
theorem c7_counterexample :
    assertCond [((5 : ℚ), (5 : ℚ), (5 : ℚ))] = false ∧
    (clippedOffsets [((5 : ℚ), (5 : ℚ), (5 : ℚ))]).getD 0 (.fin 0, .fin 0)
      = (.nan, .nan) := by
  constructor
  · with_unfolding_all rfl
  · with_unfolding_all rfl

/-! #### Integer shadow of the index pipeline

When `0 < gridSize pc` no NaN arises and every index stage computes the
integer values below; the simulation lemmas make this precise. -/

/-- Value of `idxX` when the grid size is positive. -/
def idxXZ (pc : List Vec3) (p : Vec3) : ℤ :=
  ⌊(p.1 - listMin (pc.map (fun q => q.1))) / gridSize pc⌋

def idxYZ (pc : List Vec3) (p : Vec3) : ℤ :=
  ⌊(p.2.1 - listMin (pc.map (fun q => q.2.1))) / gridSize pc⌋

def densePairsZ (pc : List Vec3) : List (ℤ × ℤ) :=
  (pc.map (fun p => imgOffset.map (fun o =>
    (idxXZ pc p + o.1 + 1, idxYZ pc p + o.2 + 1)))).flatten

def clipZ (u : ℤ) : ℤ :=
  u + (if u < 0 then 1 else 0) - (if 223 < u then 1 else 0)

def clippedPairsZ (pc : List Vec3) : List (ℤ × ℤ) :=
  (densePairsZ pc).map (fun z =>
    (clipZ (z.1 + offsetX pc), clipZ (z.2 + offsetY pc)))

theorem idxX_fin (pc : List Vec3) (p : Vec3) (hg : 0 < gridSize pc) :
    idxX pc p = .fin ((idxXZ pc p : ℤ) : ℚ) := by
  unfold idxX idxXZ
  rw [show rfDiv (.fin (p.1 - listMin (pc.map (fun q => q.1)))) (.fin (gridSize pc))
      = .fin ((p.1 - listMin (pc.map (fun q => q.1))) / gridSize pc) from by
    rw [rfDiv, if_neg (ne_of_gt hg)]]
  rfl

theorem idxY_fin (pc : List Vec3) (p : Vec3) (hg : 0 < gridSize pc) :
    idxY pc p = .fin ((idxYZ pc p : ℤ) : ℚ) := by
  unfold idxY idxYZ
  rw [show rfDiv (.fin (p.2.1 - listMin (pc.map (fun q => q.2.1)))) (.fin (gridSize pc))
      = .fin ((p.2.1 - listMin (pc.map (fun q => q.2.1))) / gridSize pc) from by
    rw [rfDiv, if_neg (ne_of_gt hg)]]
  rfl

theorem idxDense_eq (pc : List Vec3) (hg : 0 < gridSize pc) :
    idxDense pc
      = (densePairsZ pc).map (fun z => (RF.fin ((z.1 : ℤ) : ℚ), RF.fin ((z.2 : ℤ) : ℚ))) := by
  unfold idxDense densePairsZ
  rw [List.map_flatten, List.map_map]
  congr 1
  apply List.map_congr_left
  intro p _
  simp only [Function.comp_apply, List.map_map]
  apply List.map_congr_left
  intro o _
  simp only [Function.comp_apply]
  rw [idxX_fin pc p hg, idxY_fin pc p hg]
  rw [Prod.mk.injEq]
  constructor
  all_goals
    rw [rfAdd_fin, rfAdd_fin]
    congr 1
    push_cast
    ring

theorem densePairsZ_ne_nil (pc : List Vec3) (hne : pc ≠ []) :
    densePairsZ pc ≠ [] := by
  cases pc with
  | nil => exact absurd rfl hne
  | cons p rest =>
    unfold densePairsZ
    simp [imgOffset]

theorem densePairsZ_length (pc : List Vec3) :
    (densePairsZ pc).length = 25 * pc.length := by
  unfold densePairsZ
  rw [List.length_flatten, List.map_map]
  have h : (pc.map (fun p => (imgOffset.map (fun o =>
      (idxXZ pc p + o.1 + 1, idxYZ pc p + o.2 + 1))).length))
      = List.replicate pc.length 25 := by
    rw [List.eq_replicate_iff]
    refine ⟨by simp, ?_⟩
    intro b hb
    obtain ⟨p, _, rfl⟩ := List.mem_map.mp hb
    simp [imgOffset]
  calc (List.map ((fun l => l.length) ∘ fun p => imgOffset.map (fun o =>
        (idxXZ pc p + o.1 + 1, idxYZ pc p + o.2 + 1))) pc).sum
      = (List.replicate pc.length 25).sum := by rw [← h]; rfl
    _ = 25 * pc.length := by rw [List.sum_replicate, smul_eq_mul]; ring

theorem centerX_eq (pc : List Vec3) (hne : pc ≠ []) (hg : 0 < gridSize pc) :
    centerX pc
      = ⌊(((listMax ((densePairsZ pc).map (fun z => z.1)) : ℤ) : ℚ)
          + ((listMin ((densePairsZ pc).map (fun z => z.1)) : ℤ) : ℚ)) / 2⌋ := by
  unfold centerX
  rw [idxDense_eq pc hg]
  have hzne : (densePairsZ pc).map (fun z : ℤ × ℤ => z.1) ≠ [] := by
    intro hcon
    exact densePairsZ_ne_nil pc hne (List.map_eq_nil_iff.mp hcon)
  have hmm : ((densePairsZ pc).map (fun z : ℤ × ℤ =>
        (RF.fin ((z.1 : ℤ) : ℚ), RF.fin ((z.2 : ℤ) : ℚ)))).map (fun v => v.1)
      = (((densePairsZ pc).map (fun z : ℤ × ℤ => z.1)).map (fun z : ℤ => (z : ℚ))).map
          RF.fin := by
    rw [List.map_map, List.map_map, List.map_map]
    rfl
  have hne2 : ((densePairsZ pc).map (fun z : ℤ × ℤ => z.1)).map
      (fun z : ℤ => (z : ℚ)) ≠ [] := by
    intro hcon
    exact hzne (List.map_eq_nil_iff.mp hcon)
  rw [hmm, rfListMax_map_fin _ hne2, rfListMin_map_fin _ hne2,
    listMax_intCast _ hzne, listMin_intCast _ hzne, rfAdd_fin,
    rfDiv_fin _ 2 (by norm_num), rfFloor_fin, rfToIntTrunc_intCast]

theorem centerY_eq (pc : List Vec3) (hne : pc ≠ []) (hg : 0 < gridSize pc) :
    centerY pc
      = ⌊(((listMax ((densePairsZ pc).map (fun z => z.2)) : ℤ) : ℚ)
          + ((listMin ((densePairsZ pc).map (fun z => z.2)) : ℤ) : ℚ)) / 2⌋ := by
  unfold centerY
  rw [idxDense_eq pc hg]
  have hzne : (densePairsZ pc).map (fun z : ℤ × ℤ => z.2) ≠ [] := by
    intro hcon
    exact densePairsZ_ne_nil pc hne (List.map_eq_nil_iff.mp hcon)
  have hmm : ((densePairsZ pc).map (fun z : ℤ × ℤ =>
        (RF.fin ((z.1 : ℤ) : ℚ), RF.fin ((z.2 : ℤ) : ℚ)))).map (fun v => v.2)
      = (((densePairsZ pc).map (fun z : ℤ × ℤ => z.2)).map (fun z : ℤ => (z : ℚ))).map
          RF.fin := by
    rw [List.map_map, List.map_map, List.map_map]
    rfl
  have hne2 : ((densePairsZ pc).map (fun z : ℤ × ℤ => z.2)).map
      (fun z : ℤ => (z : ℚ)) ≠ [] := by
    intro hcon
    exact hzne (List.map_eq_nil_iff.mp hcon)
  rw [hmm, rfListMax_map_fin _ hne2, rfListMin_map_fin _ hne2,
    listMax_intCast _ hzne, listMin_intCast _ hzne, rfAdd_fin,
    rfDiv_fin _ 2 (by norm_num), rfFloor_fin, rfToIntTrunc_intCast]

theorem idxXZ_bounds (pc : List Vec3) (p : Vec3) (hp : p ∈ pc)
    (hg : 0 < gridSize pc) : 0 ≤ idxXZ pc p ∧ idxXZ pc p ≤ 221 := by
  have hmem : p.1 ∈ pc.map (fun q => q.1) := List.mem_map_of_mem _ hp
  have hlo : listMin (pc.map (fun q => q.1)) ≤ p.1 := listMin_le hmem
  have hhi : p.1 ≤ listMax (pc.map (fun q => q.1)) := le_listMax hmem
  have hmax : max (listMax (pc.map (fun p => p.1)) - listMin (pc.map (fun p => p.1)))
      (listMax (pc.map (fun p => p.2.1)) - listMin (pc.map (fun p => p.2.1)))
      = gridSize pc * 221 := by
    unfold gridSize
    field_simp
  constructor
  · exact Int.floor_nonneg.mpr (div_nonneg (by linarith) (le_of_lt hg))
  · have hbound : p.1 - listMin (pc.map (fun q => q.1))
        ≤ max (listMax (pc.map (fun p => p.1)) - listMin (pc.map (fun p => p.1)))
          (listMax (pc.map (fun p => p.2.1)) - listMin (pc.map (fun p => p.2.1))) :=
      le_trans (by linarith) (le_max_left _ _)
    have hq : (p.1 - listMin (pc.map (fun q => q.1))) / gridSize pc ≤ 221 := by
      rw [div_le_iff₀ hg]
      calc p.1 - listMin (pc.map (fun q => q.1)) ≤ gridSize pc * 221 := by
            rw [← hmax]; exact hbound
        _ = 221 * gridSize pc := by ring
    calc idxXZ pc p ≤ ⌊(221 : ℚ)⌋ := Int.floor_le_floor hq
      _ = 221 := by norm_num

theorem idxYZ_bounds (pc : List Vec3) (p : Vec3) (hp : p ∈ pc)
    (hg : 0 < gridSize pc) : 0 ≤ idxYZ pc p ∧ idxYZ pc p ≤ 221 := by
  have hmem : p.2.1 ∈ pc.map (fun q => q.2.1) := List.mem_map_of_mem _ hp
  have hlo : listMin (pc.map (fun q => q.2.1)) ≤ p.2.1 := listMin_le hmem
  have hhi : p.2.1 ≤ listMax (pc.map (fun q => q.2.1)) := le_listMax hmem
  have hmax : max (listMax (pc.map (fun p => p.1)) - listMin (pc.map (fun p => p.1)))
      (listMax (pc.map (fun p => p.2.1)) - listMin (pc.map (fun p => p.2.1)))
      = gridSize pc * 221 := by
    unfold gridSize
    field_simp
  constructor
  · exact Int.floor_nonneg.mpr (div_nonneg (by linarith) (le_of_lt hg))
  · have hbound : p.2.1 - listMin (pc.map (fun q => q.2.1))
        ≤ max (listMax (pc.map (fun p => p.1)) - listMin (pc.map (fun p => p.1)))
          (listMax (pc.map (fun p => p.2.1)) - listMin (pc.map (fun p => p.2.1))) :=
      le_trans (by linarith) (le_max_right _ _)
    have hq : (p.2.1 - listMin (pc.map (fun q => q.2.1))) / gridSize pc ≤ 221 := by
      rw [div_le_iff₀ hg]
      calc p.2.1 - listMin (pc.map (fun q => q.2.1)) ≤ gridSize pc * 221 := by
            rw [← hmax]; exact hbound
        _ = 221 * gridSize pc := by ring
    calc idxYZ pc p ≤ ⌊(221 : ℚ)⌋ := Int.floor_le_floor hq
      _ = 221 := by norm_num

theorem densePairsZ_bounds (pc : List Vec3) (hg : 0 < gridSize pc) :
    ∀ z ∈ densePairsZ pc, (-1 ≤ z.1 ∧ z.1 ≤ 224) ∧ (-1 ≤ z.2 ∧ z.2 ≤ 224) := by
  intro z hz
  unfold densePairsZ at hz
  rw [List.mem_flatten] at hz
  obtain ⟨l, hl, hzl⟩ := hz
  obtain ⟨p, hp, rfl⟩ := List.mem_map.mp hl
  obtain ⟨o, ho, rfl⟩ := List.mem_map.mp hzl
  have hx := idxXZ_bounds pc p hp hg
  have hy := idxYZ_bounds pc p hp hg
  have hox : -2 ≤ o.1 ∧ o.1 ≤ 2 ∧ -2 ≤ o.2 ∧ o.2 ≤ 2 := by
    have hall : ∀ o ∈ imgOffset, -2 ≤ o.1 ∧ o.1 ≤ 2 ∧ -2 ≤ o.2 ∧ o.2 ≤ 2 := by decide
    exact hall o ho
  refine ⟨⟨?_, ?_⟩, ?_, ?_⟩ <;> dsimp only <;> omega

theorem clipZ_bounds (u : ℤ) (h1 : -1 ≤ u) (h2 : u ≤ 224) :
    0 ≤ clipZ u ∧ clipZ u ≤ 223 := by
  unfold clipZ
  split_ifs <;> omega

theorem clippedPairsZ_bounds (pc : List Vec3) (hne : pc ≠ []) (hg : 0 < gridSize pc) :
    ∀ w ∈ clippedPairsZ pc, (0 ≤ w.1 ∧ w.1 ≤ 223) ∧ (0 ≤ w.2 ∧ w.2 ≤ 223) := by
  intro w hw
  unfold clippedPairsZ at hw
  obtain ⟨z, hz, rfl⟩ := List.mem_map.mp hw
  have hcx := centerX_eq pc hne hg
  have hcy := centerY_eq pc hne hg
  have hmapneX : (densePairsZ pc).map (fun z : ℤ × ℤ => z.1) ≠ [] := by
    intro hcon
    exact densePairsZ_ne_nil pc hne (List.map_eq_nil_iff.mp hcon)
  have hmapneY : (densePairsZ pc).map (fun z : ℤ × ℤ => z.2) ≠ [] := by
    intro hcon
    exact densePairsZ_ne_nil pc hne (List.map_eq_nil_iff.mp hcon)
  -- x coordinate
  have hmemX : z.1 ∈ (densePairsZ pc).map (fun z => z.1) := List.mem_map_of_mem _ hz
  have hmnleX : listMin ((densePairsZ pc).map (fun z => z.1)) ≤ z.1 := listMin_le hmemX
  have hmxgeX : z.1 ≤ listMax ((densePairsZ pc).map (fun z => z.1)) := le_listMax hmemX
  obtain ⟨z', hz', hz'e⟩ := List.mem_map.mp (listMin_mem hmapneX)
  have hmnloX : -1 ≤ listMin ((densePairsZ pc).map (fun z => z.1)) := by
    have := (densePairsZ_bounds pc hg z' hz').1.1
    omega
  obtain ⟨z'', hz'', hz''e⟩ := List.mem_map.mp (listMax_mem hmapneX)
  have hmxhiX : listMax ((densePairsZ pc).map (fun z => z.1)) ≤ 224 := by
    have := (densePairsZ_bounds pc hg z'' hz'').1.2
    omega
  have hflX : 2 * centerX pc ≤ listMax ((densePairsZ pc).map (fun z => z.1))
      + listMin ((densePairsZ pc).map (fun z => z.1)) := by
    rw [hcx]
    have h := Int.floor_le ((((listMax ((densePairsZ pc).map (fun z => z.1)) : ℤ) : ℚ)
      + ((listMin ((densePairsZ pc).map (fun z => z.1)) : ℤ) : ℚ)) / 2)
    have h3 : (2 : ℚ) * ((⌊(((listMax ((densePairsZ pc).map (fun z => z.1)) : ℤ) : ℚ)
        + ((listMin ((densePairsZ pc).map (fun z => z.1)) : ℤ) : ℚ)) / 2⌋ : ℤ) : ℚ)
        ≤ ((listMax ((densePairsZ pc).map (fun z => z.1)) : ℤ) : ℚ)
          + ((listMin ((densePairsZ pc).map (fun z => z.1)) : ℤ) : ℚ) := by
      linarith
    exact_mod_cast h3
  have hfuX : listMax ((densePairsZ pc).map (fun z => z.1))
      + listMin ((densePairsZ pc).map (fun z => z.1)) ≤ 2 * centerX pc + 1 := by
    rw [hcx]
    have h := Int.lt_floor_add_one ((((listMax ((densePairsZ pc).map (fun z => z.1)) : ℤ) : ℚ)
      + ((listMin ((densePairsZ pc).map (fun z => z.1)) : ℤ) : ℚ)) / 2)
    have h3 : ((listMax ((densePairsZ pc).map (fun z => z.1)) : ℤ) : ℚ)
        + ((listMin ((densePairsZ pc).map (fun z => z.1)) : ℤ) : ℚ)
        < 2 * ((⌊(((listMax ((densePairsZ pc).map (fun z => z.1)) : ℤ) : ℚ)
          + ((listMin ((densePairsZ pc).map (fun z => z.1)) : ℤ) : ℚ)) / 2⌋ : ℤ) : ℚ) + 2 := by
      linarith
    have h4 : listMax ((densePairsZ pc).map (fun z => z.1))
        + listMin ((densePairsZ pc).map (fun z => z.1))
        < 2 * ⌊(((listMax ((densePairsZ pc).map (fun z => z.1)) : ℤ) : ℚ)
          + ((listMin ((densePairsZ pc).map (fun z => z.1)) : ℤ) : ℚ)) / 2⌋ + 2 := by
      exact_mod_cast h3
    omega
  -- y coordinate
  have hmemY : z.2 ∈ (densePairsZ pc).map (fun z => z.2) := List.mem_map_of_mem _ hz
  have hmnleY : listMin ((densePairsZ pc).map (fun z => z.2)) ≤ z.2 := listMin_le hmemY
  have hmxgeY : z.2 ≤ listMax ((densePairsZ pc).map (fun z => z.2)) := le_listMax hmemY
  obtain ⟨y', hy', hy'e⟩ := List.mem_map.mp (listMin_mem hmapneY)
  have hmnloY : -1 ≤ listMin ((densePairsZ pc).map (fun z => z.2)) := by
    have := (densePairsZ_bounds pc hg y' hy').2.1
    omega
  obtain ⟨y'', hy'', hy''e⟩ := List.mem_map.mp (listMax_mem hmapneY)
  have hmxhiY : listMax ((densePairsZ pc).map (fun z => z.2)) ≤ 224 := by
    have := (densePairsZ_bounds pc hg y'' hy'').2.2
    omega
  have hflY : 2 * centerY pc ≤ listMax ((densePairsZ pc).map (fun z => z.2))
      + listMin ((densePairsZ pc).map (fun z => z.2)) := by
    rw [hcy]
    have h := Int.floor_le ((((listMax ((densePairsZ pc).map (fun z => z.2)) : ℤ) : ℚ)
      + ((listMin ((densePairsZ pc).map (fun z => z.2)) : ℤ) : ℚ)) / 2)
    have h3 : (2 : ℚ) * ((⌊(((listMax ((densePairsZ pc).map (fun z => z.2)) : ℤ) : ℚ)
        + ((listMin ((densePairsZ pc).map (fun z => z.2)) : ℤ) : ℚ)) / 2⌋ : ℤ) : ℚ)
        ≤ ((listMax ((densePairsZ pc).map (fun z => z.2)) : ℤ) : ℚ)
          + ((listMin ((densePairsZ pc).map (fun z => z.2)) : ℤ) : ℚ) := by
      linarith
    exact_mod_cast h3
  have hfuY : listMax ((densePairsZ pc).map (fun z => z.2))
      + listMin ((densePairsZ pc).map (fun z => z.2)) ≤ 2 * centerY pc + 1 := by
    rw [hcy]
    have h := Int.lt_floor_add_one ((((listMax ((densePairsZ pc).map (fun z => z.2)) : ℤ) : ℚ)
      + ((listMin ((densePairsZ pc).map (fun z => z.2)) : ℤ) : ℚ)) / 2)
    have h3 : ((listMax ((densePairsZ pc).map (fun z => z.2)) : ℤ) : ℚ)
        + ((listMin ((densePairsZ pc).map (fun z => z.2)) : ℤ) : ℚ)
        < 2 * ((⌊(((listMax ((densePairsZ pc).map (fun z => z.2)) : ℤ) : ℚ)
          + ((listMin ((densePairsZ pc).map (fun z => z.2)) : ℤ) : ℚ)) / 2⌋ : ℤ) : ℚ) + 2 := by
      linarith
    have h4 : listMax ((densePairsZ pc).map (fun z => z.2))
        + listMin ((densePairsZ pc).map (fun z => z.2))
        < 2 * ⌊(((listMax ((densePairsZ pc).map (fun z => z.2)) : ℤ) : ℚ)
          + ((listMin ((densePairsZ pc).map (fun z => z.2)) : ℤ) : ℚ)) / 2⌋ + 2 := by
      exact_mod_cast h3
    omega
  have hoX : offsetX pc = 112 - centerX pc - 1 := rfl
  have hoY : offsetY pc = 112 - centerY pc - 1 := rfl
  have huX : -1 ≤ z.1 + offsetX pc ∧ z.1 + offsetX pc ≤ 224 := by omega
  have huY : -1 ≤ z.2 + offsetY pc ∧ z.2 + offsetY pc ≤ 224 := by omega
  exact ⟨clipZ_bounds _ huX.1 huX.2, clipZ_bounds _ huY.1 huY.2⟩

theorem rfLeB_fin (a b : ℚ) : rfLeB (.fin a) (.fin b) = decide (a ≤ b) := rfl

theorem clipRF_intCast (u : ℤ) :
    clipRF (.fin (u : ℚ)) = .fin ((clipZ u : ℤ) : ℚ) := by
  unfold clipRF clipZ
  have hlt : rfLtB (.fin (u : ℚ)) (.fin 0) = decide (u < 0) := by
    show decide ((u : ℚ) < 0) = decide (u < 0)
    simp
  have hgt : rfLtB (.fin (223 : ℚ)) (.fin (u : ℚ)) = decide (223 < u) := by
    show decide ((223 : ℚ) < (u : ℚ)) = decide (223 < u)
    rw [decide_eq_decide]
    exact_mod_cast Iff.rfl
  rw [hlt, hgt, rfAdd_fin, rfSub_fin]
  congr 1
  simp only [decide_eq_true_eq]
  split_ifs <;> push_cast <;> ring

theorem clippedPairsZ_ne_nil (pc : List Vec3) (hne : pc ≠ []) :
    clippedPairsZ pc ≠ [] := by
  unfold clippedPairsZ
  intro hcon
  exact densePairsZ_ne_nil pc hne (List.map_eq_nil_iff.mp hcon)

theorem clippedOffsets_eq (pc : List Vec3) (hg : 0 < gridSize pc) :
    clippedOffsets pc
      = (clippedPairsZ pc).map
          (fun w => (RF.fin ((w.1 : ℤ) : ℚ), RF.fin ((w.2 : ℤ) : ℚ))) := by
  unfold clippedOffsets idxDenseOffset clippedPairsZ
  rw [idxDense_eq pc hg, List.map_map, List.map_map, List.map_map]
  apply List.map_congr_left
  intro z _
  simp only [Function.comp_apply]
  rw [Prod.mk.injEq]
  constructor
  · rw [rfAdd_fin, ← Int.cast_add, clipRF_intCast]
  · rw [rfAdd_fin, ← Int.cast_add, clipRF_intCast]

theorem flatIdxs_eq (pc : List Vec3) (hg : 0 < gridSize pc) :
    flatIdxs pc = (clippedPairsZ pc).map (fun w => (w.1 * 224 + w.2).toNat) := by
  unfold flatIdxs
  rw [clippedOffsets_eq pc hg, List.map_map]
  apply List.map_congr_left
  intro w _
  simp only [Function.comp_apply]
  rw [rfMul_fin, rfAdd_fin]
  rw [show ((w.1 : ℤ) : ℚ) * 224 + ((w.2 : ℤ) : ℚ) = ((w.1 * 224 + w.2 : ℤ) : ℚ) from by
    push_cast
    ring]
  rw [rfToIntTrunc_intCast]

theorem assertCond_true (pc : List Vec3) (hne : pc ≠ []) (hg : 0 < gridSize pc) :
    assertCond pc = true := by
  unfold assertCond
  rw [clippedOffsets_eq pc hg]
  have hXlist : ((clippedPairsZ pc).map (fun w : ℤ × ℤ =>
        (RF.fin ((w.1 : ℤ) : ℚ), RF.fin ((w.2 : ℤ) : ℚ)))).map (fun v => v.1)
      = (((clippedPairsZ pc).map (fun w => w.1)).map (fun z : ℤ => (z : ℚ))).map
          RF.fin := by
    rw [List.map_map, List.map_map, List.map_map]
    rfl
  have hYlist : ((clippedPairsZ pc).map (fun w : ℤ × ℤ =>
        (RF.fin ((w.1 : ℤ) : ℚ), RF.fin ((w.2 : ℤ) : ℚ)))).map (fun v => v.2)
      = (((clippedPairsZ pc).map (fun w => w.2)).map (fun z : ℤ => (z : ℚ))).map
          RF.fin := by
    rw [List.map_map, List.map_map, List.map_map]
    rfl
  rw [hXlist, hYlist, ← List.map_append, ← List.map_append]
  have hclne := clippedPairsZ_ne_nil pc hne
  have hzsne : (clippedPairsZ pc).map (fun w : ℤ × ℤ => w.1)
      ++ (clippedPairsZ pc).map (fun w : ℤ × ℤ => w.2) ≠ [] := by
    intro hcon
    rcases List.append_eq_nil.mp hcon with ⟨h1, _⟩
    exact hclne (List.map_eq_nil_iff.mp h1)
  have hqne : ((clippedPairsZ pc).map (fun w : ℤ × ℤ => w.1)
      ++ (clippedPairsZ pc).map (fun w : ℤ × ℤ => w.2)).map
        (fun z : ℤ => (z : ℚ)) ≠ [] := by
    intro hcon
    exact hzsne (List.map_eq_nil_iff.mp hcon)
  rw [rfListMin_map_fin _ hqne, rfListMax_map_fin _ hqne,
    listMin_intCast _ hzsne, listMax_intCast _ hzsne, rfLeB_fin, rfLeB_fin]
  have hall : ∀ t ∈ (clippedPairsZ pc).map (fun w : ℤ × ℤ => w.1)
      ++ (clippedPairsZ pc).map (fun w : ℤ × ℤ => w.2), 0 ≤ t ∧ t ≤ 223 := by
    intro t ht
    rcases List.mem_append.mp ht with h | h
    · obtain ⟨w, hw, rfl⟩ := List.mem_map.mp h
      exact ⟨(clippedPairsZ_bounds pc hne hg w hw).1.1,
        (clippedPairsZ_bounds pc hne hg w hw).1.2⟩
    · obtain ⟨w, hw, rfl⟩ := List.mem_map.mp h
      exact ⟨(clippedPairsZ_bounds pc hne hg w hw).2.1,
        (clippedPairsZ_bounds pc hne hg w hw).2.2⟩
  have hmnb := hall _ (listMin_mem hzsne)
  have hmxb := hall _ (listMax_mem hzsne)
  rw [Bool.and_eq_true, decide_eq_true_eq, decide_eq_true_eq]
  constructor
  · exact_mod_cast hmnb.1
  · exact_mod_cast hmxb.2

theorem le_foldr_max (l : List ℕ) (x : ℕ) (hx : x ∈ l) : x ≤ l.foldr max 0 := by
  induction l with
  | nil => exact absurd hx (List.not_mem_nil x)
  | cons h t ih =>
    simp only [List.foldr_cons]
    rcases List.mem_cons.mp hx with rfl | hx'
    · exact le_max_left _ _
    · exact le_trans (ih hx') (le_max_right _ _)

theorem foldr_max_le_bound (l : List ℕ) (K : ℕ) (h : ∀ x ∈ l, x ≤ K) :
    l.foldr max 0 ≤ K := by
  induction l with
  | nil => simp
  | cons hh t ih =>
    simp only [List.foldr_cons]
    exact max_le (h hh (List.mem_cons_self hh t))
      (ih (fun x hx => h x (List.mem_cons_of_mem hh hx)))

theorem scatterSum_getD (idxs : List ℕ) (vals : List ℚ) (k : ℕ) :
    (scatterSum idxs vals).getD k 0
      = (((List.zip idxs vals).filter (fun p => decide (p.1 = k))).map
          (fun p => p.2)).sum := by
  by_cases hk : k < idxs.foldr max 0 + 1
  · unfold scatterSum
    rw [getD_map_lt _ (List.range (idxs.foldr max 0 + 1)) 0 0 (by simpa using hk)]
    rw [List.getD_eq_getElem _ _ (by simpa using hk), List.getElem_range]
  · unfold scatterSum
    rw [List.getD_eq_default _ _ (by
      simp only [List.length_map, List.length_range]
      omega)]
    have hfil : (List.zip idxs vals).filter (fun p => decide (p.1 = k)) = [] := by
      rw [List.filter_eq_nil_iff]
      intro p hp
      obtain ⟨a, b⟩ := p
      simp only [decide_eq_true_eq]
      intro hpk
      have ha : a ∈ idxs := (List.of_mem_zip hp).1
      have hle := le_foldr_max idxs a ha
      have hpk' : a = k := hpk
      omega
    rw [hfil]
    rfl

theorem getD_append_pad (l : List ℚ) (m k : ℕ) (hk : l.length ≤ k) :
    (l ++ List.replicate m (0 : ℚ)).getD k 0 = 0 := by
  by_cases h : k < l.length + m
  · rw [List.getD_eq_getElem _ _ (by simpa using h)]
    rw [List.getElem_append_right (by omega)]
    exact List.getElem_replicate _ _
  · rw [List.getD_eq_default _ _ (by
      simp only [List.length_append, List.length_replicate]
      omega)]

theorem flatIdxs_lt (pc : List Vec3) (hne : pc ≠ []) (hg : 0 < gridSize pc) :
    ∀ k ∈ flatIdxs pc, k < 224 * 224 := by
  intro k hk
  rw [flatIdxs_eq pc hg] at hk
  obtain ⟨w, hw, rfl⟩ := List.mem_map.mp hk
  have hb := clippedPairsZ_bounds pc hne hg w hw
  have h1 : w.1 * 224 + w.2 ≤ 50175 := by
    have := hb.1.2
    have := hb.2.2
    have h224 : w.1 * 224 ≤ 223 * 224 := by
      have := hb.1.2
      nlinarith
    omega
  omega

theorem scatterSum_length_le (pc : List Vec3) (hne : pc ≠ [])
    (hg : 0 < gridSize pc) :
    (scatterSum (flatIdxs pc) (fDense pc)).length ≤ 224 * 224 := by
  unfold scatterSum
  rw [List.length_map, List.length_range]
  have hb := foldr_max_le_bound (flatIdxs pc) (224 * 224 - 1)
    (fun x hx => by
      have := flatIdxs_lt pc hne hg x hx
      omega)
  omega

theorem rasterFlat_length (pc : List Vec3) (hne : pc ≠ [])
    (hg : 0 < gridSize pc) : (rasterFlat pc).length = 224 * 224 := by
  unfold rasterFlat
  split_ifs with h
  · rw [List.length_append, List.length_replicate]
    omega
  · have hle := scatterSum_length_le pc hne hg
    omega

theorem rasterFlat_getD (pc : List Vec3) (k : ℕ) :
    (rasterFlat pc).getD k 0 = (scatterSum (flatIdxs pc) (fDense pc)).getD k 0 := by
  unfold rasterFlat
  split_ifs with h
  · by_cases hk2 : k < (scatterSum (flatIdxs pc) (fDense pc)).length
    · rw [List.getD_append _ _ _ _ hk2]
    · rw [getD_append_pad _ _ _ (by omega)]
      rw [List.getD_eq_default _ _ (by omega)]
  · rfl

/-- **C7 (amended)**: for every input whose 2-D bounding box has positive
extent, the recentered dense indices can leave `[0, 223]` by at most one, so
the `±1` clipping step clamps every out-of-range index to the nearest edge
without dropping any point (the index count stays `25·N`); afterwards every
index lies in `[0, 223]` and the bounds assertion passes.  (On inputs of zero
2-D extent the indices are NaN and the assertion fails instead; see the
counterexample.) -/
theorem c7_clipping (pc : List Vec3) (hne : pc ≠ []) (hg : 0 < gridSize pc) :
    (clippedOffsets pc).length = 25 * pc.length ∧
    (∀ v ∈ clippedOffsets pc,
      (∃ zx : ℤ, v.1 = .fin (zx : ℚ) ∧ 0 ≤ zx ∧ zx ≤ 223) ∧
      (∃ zy : ℤ, v.2 = .fin (zy : ℚ) ∧ 0 ≤ zy ∧ zy ≤ 223)) ∧
    assertCond pc = true := by
  refine ⟨?_, ?_, assertCond_true pc hne hg⟩
  · unfold clippedOffsets idxDenseOffset
    rw [List.length_map, List.length_map, idxDense_eq pc hg, List.length_map,
      densePairsZ_length]
  · intro v hv
    rw [clippedOffsets_eq pc hg] at hv
    obtain ⟨w, hw, rfl⟩ := List.mem_map.mp hv
    have hb := clippedPairsZ_bounds pc hne hg w hw
    exact ⟨⟨w.1, rfl, hb.1.1, hb.1.2⟩, ⟨w.2, rfl, hb.2.1, hb.2.2⟩⟩

/-- A concrete positive-extent cloud used by the rasterizer witnesses. -/
def posCloud : List Vec3 :=
  [((0 : ℚ), (0 : ℚ), (0 : ℚ)), ((221 : ℚ), (221 : ℚ), (7 : ℚ))]

theorem posCloud_grid_pos : 0 < gridSize posCloud :=
  of_decide_eq_true (by with_unfolding_all rfl)

/-- **C7 witness**: the amended statement at the concrete two-point cloud. -/
theorem c7_clipping_witness :
    (posCloud ≠ [] ∧ 0 < gridSize posCloud) ∧
    ((clippedOffsets posCloud).length = 25 * posCloud.length ∧
     (∀ v ∈ clippedOffsets posCloud,
       (∃ zx : ℤ, v.1 = .fin (zx : ℚ) ∧ 0 ≤ zx ∧ zx ≤ 223) ∧
       (∃ zy : ℤ, v.2 = .fin (zy : ℚ) ∧ 0 ≤ zy ∧ zy ≤ 223)) ∧
     assertCond posCloud = true) :=
  ⟨⟨List.cons_ne_nil _ _, posCloud_grid_pos⟩,
    c7_clipping posCloud (List.cons_ne_nil _ _) posCloud_grid_pos⟩

/-- **C6 (amended)**: for every input with positive 2-D bounding-box extent
the pipeline produces a well-defined image of finite rational pixel values
(no NaN/Inf arises and the bounds assertion passes); for degenerate inputs
where all points coincide in x and y, the derived grid cell size is zero, the
`0/0` division makes every index NaN, and `proj2img` fails its bounds
assertion instead of returning an image. -/
theorem c6_finite_image (sig : ℚ → ℚ) (pc : List Vec3) (hne : pc ≠ [])
    (hg : 0 < gridSize pc) :
    ∃ img, proj2img sig pc = some img := by
  refine ⟨(List.range 3).map (fun ch =>
      (List.range 224).map (fun r =>
        (List.range 224).map (fun c =>
          (sig ((rasterFlat pc).getD (r * 224 + c) 0) - imgMean.getD ch 0)
            / imgStd.getD ch 0))), ?_⟩
  rw [proj2img, if_pos (assertCond_true pc hne hg)]

/-- **C6 witness**. -/
theorem c6_finite_image_witness :
    (posCloud ≠ [] ∧ 0 < gridSize posCloud) ∧
    (∃ img, proj2img (fun q => q) posCloud = some img) :=
  ⟨⟨List.cons_ne_nil _ _, posCloud_grid_pos⟩,
    c6_finite_image (fun q => q) posCloud (List.cons_ne_nil _ _) posCloud_grid_pos⟩

/-- **C5 (amended)**: for every non-empty input point cloud whose 2-D
bounding box has positive extent, `proj2img` returns a fully populated
pseudo-image — 3 channels of exactly `224 × 224` cells — whose underlying
raster holds, in every cell, the sum of the z-intensities of the densified
points quantized to that cell (and hence `0` in cells receiving no points),
before the sigmoid/normalization step.  (A degenerate all-identical cloud
instead fails the bounds assertion; see the counterexample.) -/
theorem c5_raster (sig : ℚ → ℚ) (pc : List Vec3) (hne : pc ≠ [])
    (hg : 0 < gridSize pc) :
    (∃ img, proj2img sig pc = some img ∧ img.length = 3 ∧
      ∀ chan ∈ img, chan.length = 224 ∧ ∀ row ∈ chan, row.length = 224) ∧
    (rasterFlat pc).length = 224 * 224 ∧
    (∀ r < 224, ∀ c < 224,
      (rasterFlat pc).getD (r * 224 + c) 0
        = (((List.zip (flatIdxs pc) (fDense pc)).filter
            (fun p => decide (p.1 = r * 224 + c))).map (fun p => p.2)).sum) := by
  refine ⟨?_, rasterFlat_length pc hne hg, ?_⟩
  · refine ⟨(List.range 3).map (fun ch =>
        (List.range 224).map (fun r =>
          (List.range 224).map (fun c =>
            (sig ((rasterFlat pc).getD (r * 224 + c) 0) - imgMean.getD ch 0)
              / imgStd.getD ch 0))),
      by rw [proj2img, if_pos (assertCond_true pc hne hg)], by simp, ?_⟩
    intro chan hchan
    obtain ⟨ch, _, rfl⟩ := List.mem_map.mp hchan
    refine ⟨by simp, ?_⟩
    intro row hrow
    obtain ⟨r, _, rfl⟩ := List.mem_map.mp hrow
    simp
  · intro r hr c hc
    rw [rasterFlat_getD pc _, scatterSum_getD]

/-- **C5 witness**. -/
theorem c5_raster_witness :
    (posCloud ≠ [] ∧ 0 < gridSize posCloud) ∧
    ((∃ img, proj2img (fun q => q) posCloud = some img ∧ img.length = 3 ∧
       ∀ chan ∈ img, chan.length = 224 ∧ ∀ row ∈ chan, row.length = 224) ∧
     (rasterFlat posCloud).length = 224 * 224 ∧
     (∀ r < 224, ∀ c < 224,
       (rasterFlat posCloud).getD (r * 224 + c) 0
         = (((List.zip (flatIdxs posCloud) (fDense posCloud)).filter
             (fun p => decide (p.1 = r * 224 + c))).map (fun p => p.2)).sum)) :=
  ⟨⟨List.cons_ne_nil _ _, posCloud_grid_pos⟩,
    c5_raster (fun q => q) posCloud (List.cons_ne_nil _ _) posCloud_grid_pos⟩

end PCPMAE
